import Mathlib

/-!
Verification of the ydl subtitle library: a shallow embedding of the
track-selection policy (`extractor.rs`), the subtitle content processor
(`processor.rs`) and the retry wrapper (`lib.rs`), together with proofs of
the specified properties.

Conventions of the embedding:
* Rust `Duration` values are modelled as natural numbers of milliseconds
  (every parser in scope constructs durations from integral milliseconds or
  seconds; the legacy XML branch's fractional seconds are modelled at
  millisecond precision).
* Rust `String` is modelled as Lean `String`; character-level algorithms
  (splitting, trimming, regex-shaped scanning) work on `List Char`.
* Fallible functions return `Except YdlError α`.
* Recursive scanners that advance by a computed amount carry an explicit
  fuel argument equal to the length of the scanned list, which makes them
  structurally recursive and fully evaluable.
-/

/-! ## Data model -/

/-- Kind of a discovered subtitle track (`SubtitleTrackType` in `types.rs`,
reconstructed from its uses in `extractor.rs` and spec §3: kind ∈
{Manual, AutoGenerated}). -/
inductive SubtitleTrackType where
  | Manual
  | AutoGenerated
deriving DecidableEq, Repr

/-- A discovered subtitle track (`SubtitleTrack` in `types.rs`, reconstructed
from its uses in `extractor.rs` and spec §3: language code, display name,
kind, source locator, translatable flag). -/
structure SubtitleTrack where
  language_code : String
  language_name : String
  track_type : SubtitleTrackType
  url : Option String := none
  translatable : Bool := false
deriving DecidableEq, Repr

/-- Output subtitle format (`SubtitleType` in `types.rs`, reconstructed from
its uses in `processor.rs`). -/
inductive SubtitleType where
  | Srt
  | Vtt
  | Txt
  | Json
  | Raw
deriving DecidableEq, Repr

/-- The download preferences consulted by track filtering and selection
(`YdlOptions` in `types.rs`, reconstructed from its uses in `extractor.rs`
and spec §3 DownloadPreferences; only the fields the verified code reads). -/
structure YdlOptions where
  language : Option String := none
  allow_auto_generated : Bool := true
  prefer_manual : Bool := true
deriving DecidableEq, Repr

/-- Error taxonomy (`YdlError` in `error.rs`, which is not under `src/`).
Modelled from the spec: §7 lists the closed taxonomy; the variant names
follow the constructors used throughout `extractor.rs`, `processor.rs` and
`lib.rs`. -/
inductive YdlError where
  | Configuration (message : String)
  | VideoNotFound (video_id : String)
  | VideoRestricted (video_id : String)
  | RateLimited (retry_after : Nat)
  | ServiceUnavailable
  | TransportFailure (message : String)
  | NoSubtitlesAvailable (video_id : String)
  | OnlyAutoGenerated (video_id : String)
  | SubtitleParsing (message : String)
  | SubtitleDiscoveryError (message : String)
  | MetadataParsingError (message : String)
deriving DecidableEq, Repr

/-- Retryability classification of an error. Modelled from the spec:
`YdlError::is_retryable` lives in `error.rs`, which is not under `src/`;
spec §4.8 fixes the classification — transport failures, rate-limiting and
transient service-unavailability are retryable, every other kind is
terminal. -/
def YdlError.isRetryable : YdlError → Bool
  | .TransportFailure _ => true
  | .RateLimited _ => true
  | .ServiceUnavailable => true
  | _ => false

/-- A canonical subtitle entry (`SubtitleEntry` in `types.rs`, reconstructed
from its uses in `processor.rs` and spec §3: start offset, end offset, text).
`endT` models the Rust field `end`, which is a reserved word in Lean.
Offsets are in milliseconds. -/
structure SubtitleEntry where
  start : Nat
  endT : Nat
  text : String
deriving DecidableEq, Repr

/-- A parsed subtitle document (`ParsedSubtitles` in `types.rs`,
reconstructed from its uses in `processor.rs` and spec §3
CanonicalSubtitleSet: ordered entries, language code, detected source
format). -/
structure ParsedSubtitles where
  entries : List SubtitleEntry
  language : String
  format : SubtitleType
deriving DecidableEq, Repr

/-! ## Track filtering and selection (`extractor.rs`) -/

/-- `SubtitleExtractor::filter_tracks` (extractor.rs:513-570), translated
statement by statement: reject an empty input; narrow to the preferred
language only when that keeps at least one track; drop auto-generated
tracks when they are disallowed; narrow to manual tracks only when that
keeps at least one track; an empty final set is `OnlyAutoGenerated` when
auto-generated tracks were disallowed and `NoSubtitlesAvailable`
otherwise. -/
def filterTracks (opts : YdlOptions) (tracks : List SubtitleTrack)
    (video_id : String) : Except YdlError (List SubtitleTrack) :=
  if tracks.isEmpty then
    .error (.NoSubtitlesAvailable video_id)
  else
    let filtered := tracks
    let filtered :=
      match opts.language with
      | some preferred_lang =>
        let lang_matches := filtered.filter
          (fun t => t.language_code == preferred_lang)
        if lang_matches.isEmpty then filtered else lang_matches
      | none => filtered
    let filtered :=
      if !opts.allow_auto_generated then
        filtered.filter (fun t => !(t.track_type == SubtitleTrackType.AutoGenerated))
      else filtered
    let filtered :=
      if opts.prefer_manual then
        let manual_tracks := filtered.filter
          (fun t => t.track_type == SubtitleTrackType.Manual)
        if manual_tracks.isEmpty then filtered else manual_tracks
      else filtered
    if filtered.isEmpty then
      if !opts.allow_auto_generated then
        .error (.OnlyAutoGenerated video_id)
      else
        .error (.NoSubtitlesAvailable video_id)
    else
      .ok filtered

/-- The language-narrowing step of `filter_tracks` in isolation: narrow to
the preferred language only when the narrowed set is non-empty. -/
def langStep (opts : YdlOptions) (tracks : List SubtitleTrack) :
    List SubtitleTrack :=
  match opts.language with
  | some preferred_lang =>
    let lang_matches := tracks.filter (fun t => t.language_code == preferred_lang)
    if lang_matches.isEmpty then tracks else lang_matches
  | none => tracks

/-- The auto-generated-dropping step of `filter_tracks` in isolation:
unconditionally drop auto-generated tracks when they are disallowed. -/
def autoStep (opts : YdlOptions) (tracks : List SubtitleTrack) :
    List SubtitleTrack :=
  if !opts.allow_auto_generated then
    tracks.filter (fun t => !(t.track_type == SubtitleTrackType.AutoGenerated))
  else tracks

/-- The manual-narrowing step of `filter_tracks` in isolation: narrow to
manual tracks, when preferred, only when the narrowed set is non-empty. -/
def manualStep (opts : YdlOptions) (tracks : List SubtitleTrack) :
    List SubtitleTrack :=
  if opts.prefer_manual then
    let manual_tracks := tracks.filter
      (fun t => t.track_type == SubtitleTrackType.Manual)
    if manual_tracks.isEmpty then tracks else manual_tracks
  else tracks

/-- Track filtering in the order the spec claims it (claim C1): first drop
auto-generated tracks when disallowed, then the language narrowing, then
the manual narrowing. Stated from the spec's words, for comparison with
`filterTracks` (the embedding of the source). -/
def filterTracksSpecOrder (opts : YdlOptions) (tracks : List SubtitleTrack)
    (video_id : String) : Except YdlError (List SubtitleTrack) :=
  if tracks.isEmpty then
    .error (.NoSubtitlesAvailable video_id)
  else
    let filtered := autoStep opts tracks
    let filtered := langStep opts filtered
    let filtered := manualStep opts filtered
    if filtered.isEmpty then
      if !opts.allow_auto_generated then
        .error (.OnlyAutoGenerated video_id)
      else
        .error (.NoSubtitlesAvailable video_id)
    else
      .ok filtered

/-- `SubtitleExtractor::select_best_track` (extractor.rs:590-626), translated
with its control flow intact: with a preferred language, first (when manual
tracks are preferred) a manual track in that language, then any track in
that language; otherwise (and on fall-through) a manual track when manual
tracks are preferred; finally the first track. -/
def selectBestTrack (opts : YdlOptions) (tracks : List SubtitleTrack) :
    Option SubtitleTrack :=
  if tracks.isEmpty then none
  else
    let languagePick : Option SubtitleTrack :=
      match opts.language with
      | some preferred_lang =>
        let manualLangPick :=
          if opts.prefer_manual then
            tracks.find? (fun t =>
              t.language_code == preferred_lang &&
              t.track_type == SubtitleTrackType.Manual)
          else none
        match manualLangPick with
        | some t => some t
        | none => tracks.find? (fun t => t.language_code == preferred_lang)
      | none => none
    match languagePick with
    | some t => some t
    | none =>
      let manualPick :=
        if opts.prefer_manual then
          tracks.find? (fun t => t.track_type == SubtitleTrackType.Manual)
        else none
      match manualPick with
      | some t => some t
      | none => tracks.head?

/-- Track selection as the spec claims it (claim C2): the ungated priority
manual-in-language, any-in-language, any-manual, first. Stated from the
spec's words, for comparison with `selectBestTrack` (the embedding of the
source). -/
def selectBestTrackSpecClaim (opts : YdlOptions)
    (tracks : List SubtitleTrack) : Option SubtitleTrack :=
  (tracks.find? (fun t =>
      opts.language == some t.language_code &&
      t.track_type == SubtitleTrackType.Manual)) <|>
  (tracks.find? (fun t => opts.language == some t.language_code)) <|>
  (tracks.find? (fun t => t.track_type == SubtitleTrackType.Manual)) <|>
  tracks.head?

/-! ## Timing validation (`processor.rs`) -/

/-- The error-relevant loop of `ContentProcessor::validate_timing`
(processor.rs:459-499): the first entry whose start offset is not strictly
below its end offset produces the terminal error. The `warn!` calls of the
source (short duration, long duration, overlap with the previous entry) log
only and never touch the returned value, so they do not appear in the
result. -/
def validateTimingGo (i : Nat) : List SubtitleEntry → Except YdlError Unit
  | [] => .ok ()
  | entry :: rest =>
    if entry.start ≥ entry.endT then
      .error (.SubtitleParsing s!"Invalid timing at entry {i + 1}: start >= end")
    else
      validateTimingGo (i + 1) rest

/-- `ContentProcessor::validate_timing` (processor.rs:459-499). -/
def validateTiming (entries : List SubtitleEntry) : Except YdlError Unit :=
  if entries.isEmpty then .ok ()
  else validateTimingGo 0 entries

/-! ## Retry wrapper (`lib.rs`) -/

/-- One run of the retry loop of `Ydl::subtitle_with_retry` (lib.rs:189-216).
The effectful pipeline `self.subtitle(...)` is abstracted as `outcomes`,
giving the result of each successive attempt; `retries` counts consumed
retries as in the source; `fuel` bounds the recursion and is kept at
`maxRetries - retries`, which makes the zero-fuel fallback unreachable. -/
def retryGo (outcomes : Nat → Except YdlError String) (maxRetries : Nat) :
    Nat → Nat → Except YdlError String
  | retries, fuel =>
    match outcomes retries with
    | .ok content => .ok content
    | .error e =>
      if maxRetries ≤ retries then .error e
      else if e.isRetryable then
        match fuel with
        | 0 => .error e
        | fuel' + 1 => retryGo outcomes maxRetries (retries + 1) fuel'
      else .error e

/-- `Ydl::subtitle_with_retry` (lib.rs:189-216): start with zero consumed
retries. The inter-attempt sleep affects timing only, not the returned
value. -/
def subtitleWithRetry (outcomes : Nat → Except YdlError String)
    (maxRetries : Nat) : Except YdlError String :=
  retryGo outcomes maxRetries 0 maxRetries

/-! ## Character-level string operations

The content processor works on raw text; these model the Rust string
operations it uses (`split`, `lines`, `trim`, `split_whitespace`,
`replace`) and the fixed regular expressions of `processor.rs` as direct
character scanners. -/

/-- Rust `char::is_whitespace` (and the `regex` crate's `\s`): the Unicode
White_Space property, written out as its closed set of code points —
tab through carriage return, space, next line, no-break space, ogham space
mark, the general punctuation spaces U+2000..U+200A, line and paragraph
separators, narrow no-break space, medium mathematical space and
ideographic space. -/
def isWS (c : Char) : Bool :=
  c.toNat = 0x09 || c.toNat = 0x0A || c.toNat = 0x0B || c.toNat = 0x0C ||
  c.toNat = 0x0D || c.toNat = 0x20 || c.toNat = 0x85 || c.toNat = 0xA0 ||
  c.toNat = 0x1680 || (0x2000 ≤ c.toNat && c.toNat ≤ 0x200A) ||
  c.toNat = 0x2028 || c.toNat = 0x2029 || c.toNat = 0x202F ||
  c.toNat = 0x205F || c.toNat = 0x3000

/-- Rust `str::trim_start`. -/
def trimLeft (s : List Char) : List Char := s.dropWhile isWS

/-- Rust `str::trim_end`. -/
def trimRight (s : List Char) : List Char := (s.reverse.dropWhile isWS).reverse

/-- Rust `str::trim`. -/
def trimChars (s : List Char) : List Char := trimRight (trimLeft s)

/-- Rust `str::contains` for a literal pattern: some suffix of `s` starts
with `pat`. -/
def containsSub (pat : List Char) : List Char → Bool
  | [] => pat.isEmpty
  | c :: t => pat.isPrefixOf (c :: t) || containsSub pat t

/-- Rust `str::contains` on `String`s, in the argument order of the
source (`s.contains(pat)`). -/
def strContains (s pat : String) : Bool := containsSub pat.toList s.toList

/-- Consume a literal pattern from the front of the input, or fail. -/
def dropPre (pat s : List Char) : Option (List Char) :=
  if pat.isPrefixOf s then some (s.drop pat.length) else none

/-- Consume one expected character, or fail. -/
def expectChar (c : Char) : List Char → Option (List Char)
  | x :: t => if x = c then some t else none
  | [] => none

/-- Rust `str::split('\n')`: every piece, including empty ones. -/
def splitNl : List Char → List (List Char)
  | [] => [[]]
  | c :: t =>
    if c = '\n' then [] :: splitNl t
    else (splitNl t).modifyHead (fun h => c :: h)

/-- Strip one trailing carriage return, as Rust `lines` does on
newline-terminated lines. -/
def stripCR (l : List Char) : List Char :=
  if l.getLast? = some '\r' then l.dropLast else l

/-- Rust `str::lines`: split at `'\n'`, strip a `'\r'` that preceded each
`'\n'`, no empty final line for newline-terminated input, and a final
unterminated line keeps a trailing `'\r'`. -/
def linesRust (s : List Char) : List (List Char) :=
  match s with
  | [] => []
  | _ :: _ =>
    let ps := splitNl s
    if s.getLast? = some '\n' then ps.dropLast.map stripCR
    else ps.dropLast.map stripCR ++ [ps.getLast?.getD []]

/-- Rust `str::split("\n\n")`, the block splitter of the SRT parser:
non-overlapping, left to right, empty pieces kept. -/
def splitDoubleNl : List Char → List (List Char)
  | [] => [[]]
  | '\n' :: '\n' :: t => [] :: splitDoubleNl t
  | c :: t => (splitDoubleNl t).modifyHead (fun h => c :: h)

/-- Rust `str::split_whitespace`: maximal non-whitespace runs. -/
def splitWhitespacePieces (s : List Char) : List (List Char) :=
  (List.splitOnP isWS s).filter (fun l => !l.isEmpty)

/-- Rust `str::replace` (all non-overlapping occurrences, left to right),
with explicit fuel; `fuel ≥ s.length` makes the zero-fuel fallback
unreachable because every step consumes at least one character. -/
def replaceAllF (pat repl : List Char) : Nat → List Char → List Char
  | _, [] => []
  | 0, s => s
  | fuel + 1, c :: t =>
    if !pat.isEmpty && pat.isPrefixOf (c :: t) then
      repl ++ replaceAllF pat repl fuel ((c :: t).drop pat.length)
    else c :: replaceAllF pat repl fuel t

/-- Rust `str::replace`. -/
def replaceAll (pat repl s : List Char) : List Char :=
  replaceAllF pat repl s.length s

/-! ## Entity decoding and sanitizing (`processor.rs`) -/

/-- The private `html_escape::decode_html_entities` of `processor.rs`
(lines 588-602): seven sequential replacements, ampersand first. -/
def decodeHtmlEntities (s : List Char) : List Char :=
  let r := replaceAll "&amp;".toList "&".toList s
  let r := replaceAll "&lt;".toList "<".toList r
  let r := replaceAll "&gt;".toList ">".toList r
  let r := replaceAll "&quot;".toList "\"".toList r
  let r := replaceAll "&#39;".toList "'".toList r
  let r := replaceAll "&#x27;".toList "'".toList r
  let r := replaceAll "&apos;".toList "'".toList r
  r

/-- The entity-replacement chain of `clean_subtitle_entries`
(processor.rs:445-451): five sequential replacements, `&lt;` first. -/
def cleanEntityPass (s : List Char) : List Char :=
  let r := replaceAll "&lt;".toList "<".toList s
  let r := replaceAll "&gt;".toList ">".toList r
  let r := replaceAll "&amp;".toList "&".toList r
  let r := replaceAll "&quot;".toList "\"".toList r
  let r := replaceAll "&#39;".toList "'".toList r
  r

/-- Scan forward to just past the next `'>'`, or fail: the tail of a
`<[^>]*>` match of the HTML-tag regex. -/
def afterGt : List Char → Option (List Char)
  | [] => none
  | c :: t => if c = '>' then some t else afterGt t

/-- `html_tag_regex.replace_all(text, "")` (processor.rs:439): drop every
`<[^>]*>` match; a `'<'` with no later `'>'` matches nothing and stays. -/
def stripTagsF : Nat → List Char → List Char
  | _, [] => []
  | 0, s => s
  | fuel + 1, c :: t =>
    if c = '<' then
      match afterGt t with
      | some rest => stripTagsF fuel rest
      | none => c :: stripTagsF fuel t
    else c :: stripTagsF fuel t

/-- Tag removal with adequate fuel. -/
def stripTags (s : List Char) : List Char := stripTagsF s.length s

/-- The per-entry text transformation of
`ContentProcessor::clean_subtitle_entries` (processor.rs:434-456): remove
HTML-tag-shaped substrings, collapse whitespace runs to single spaces,
then the five entity replacements. -/
def cleanText (s : List Char) : List Char :=
  let s := stripTags s
  let s := List.intercalate [' '] (splitWhitespacePieces s)
  cleanEntityPass s

/-- `ContentProcessor::clean_subtitle_entries` (processor.rs:434-456). -/
def cleanSubtitleEntries (entries : List SubtitleEntry) : List SubtitleEntry :=
  entries.map (fun e => { e with text := String.mk (cleanText e.text.toList) })

/-! ## Timestamp scanning (the SRT/VTT time regexes of `processor.rs`) -/

/-- Numeric value of a digit character. -/
def charVal (c : Char) : Nat := c.toNat - 48

/-- Two mandatory digits, as `(\d{2})`. -/
def digit2 : List Char → Option (Nat × List Char)
  | a :: b :: r =>
    if a.isDigit && b.isDigit then some (10 * charVal a + charVal b, r) else none
  | _ => none

/-- Three mandatory digits, as `(\d{3})`. -/
def digit3 : List Char → Option (Nat × List Char)
  | a :: b :: c :: r =>
    if a.isDigit && b.isDigit && c.isDigit then
      some (100 * charVal a + 10 * charVal b + charVal c, r)
    else none
  | _ => none

/-- One `(\d{2}):(\d{2}):(\d{2})sep(\d{3})` timestamp at the head of the
input, combined into milliseconds exactly as `parse_srt_time` /
`parse_vtt_time` (processor.rs:345-431) combine the four captures;
`sepc` is `','` for the SRT regex and `'.'` for the VTT regex. -/
def matchTimeAt (sepc : Char) (s : List Char) : Option (Nat × List Char) := do
  let (h, s) ← digit2 s
  let s ← expectChar ':' s
  let (m, s) ← digit2 s
  let s ← expectChar ':' s
  let (sec, s) ← digit2 s
  let s ← expectChar sepc s
  let (ms, s) ← digit3 s
  pure (h * 3600000 + m * 60000 + sec * 1000 + ms, s)

/-- A full `time --> time` pattern at the head of the input. -/
def matchTimePairAt (sepc : Char) (s : List Char) : Option (Nat × Nat) := do
  let (t1, s) ← matchTimeAt sepc s
  let s ← dropPre " --> ".toList s
  let (t2, _) ← matchTimeAt sepc s
  pure (t1, t2)

/-- First match of the timestamp-pair regex anywhere in the input
(`Regex::captures` / `Regex::is_match` semantics: leftmost match). -/
def findTimePair (sepc : Char) : List Char → Option (Nat × Nat)
  | [] => none
  | c :: t =>
    match matchTimePairAt sepc (c :: t) with
    | some r => some r
    | none => findTimePair sepc t

/-! ## The SRT encoder (`to_srt_format` and the timestamp formatter) -/

/-- The decimal digit character for `d < 10`. -/
def digitChar (d : Nat) : Char := Char.ofNat (48 + d)

/-- Decimal digits of a natural number, most significant first, with fuel
(`fuel ≥ n + 1` suffices: the argument shrinks by a factor of ten per
step). -/
def natCharsF : Nat → Nat → List Char
  | 0, n => [digitChar (n % 10)]
  | fuel + 1, n =>
    if n < 10 then [digitChar n]
    else natCharsF fuel (n / 10) ++ [digitChar (n % 10)]

/-- Decimal representation of a natural number, as Rust `format!("{}")`. -/
def natChars (n : Nat) : List Char := natCharsF (n + 1) n

/-- Zero-padding to width two, as Rust `format!("{:02}")`. -/
def pad2 (n : Nat) : List Char :=
  if n < 10 then '0' :: natChars n else natChars n

/-- Zero-padding to width three, as Rust `format!("{:03}")`. -/
def pad3 (n : Nat) : List Char :=
  if n < 10 then '0' :: '0' :: natChars n
  else if n < 100 then '0' :: natChars n
  else natChars n

/-- Modelled from the spec: `SubtitleEntry::start_as_srt` / `end_as_srt`
live in `types.rs`, which is not under `src/`. Spec §4.5 and §4.7 fix the
numbered-block timestamp form as zero-padded
`hour:minute:second,millisecond` with a comma decimal (the form the SRT
time regex of `processor.rs` expects back). -/
def srtTimestamp (ms : Nat) : List Char :=
  pad2 (ms / 3600000) ++ ':' :: pad2 (ms / 60000 % 60) ++
    ':' :: pad2 (ms / 1000 % 60) ++ ',' :: pad3 (ms % 1000)

/-- The literal `" --> "` separator written between the two timestamps. -/
def arrowSep : List Char := ' ' :: '-' :: '-' :: '>' :: ' ' :: []

/-- One SRT block as written by `to_srt_format` (processor.rs:525-540),
without its terminating blank line: the one-based index, the timing line,
the text. -/
def srtBlockBody (i : Nat) (e : SubtitleEntry) : List Char :=
  natChars (i + 1) ++ '\n' ::
    (srtTimestamp e.start ++ arrowSep ++ srtTimestamp e.endT) ++
    '\n' :: e.text.toList

/-- The block sequence of `to_srt_format` from a starting index: each block
followed by the blank-line separator `"\n\n"`. -/
def toSrtGo : Nat → List SubtitleEntry → List Char
  | _, [] => []
  | i, e :: rest => srtBlockBody i e ++ '\n' :: '\n' :: toSrtGo (i + 1) rest

/-- The full character stream of `ContentProcessor::to_srt_format`. -/
def toSrtChars (entries : List SubtitleEntry) : List Char := toSrtGo 0 entries

/-- `ContentProcessor::to_srt_format` (processor.rs:525-540); the source
always returns `Ok`. -/
def toSrtFormat (entries : List SubtitleEntry) : Except YdlError String :=
  .ok (String.mk (toSrtChars entries))

/-! ## The SRT parser (`parse_srt_content`) -/

/-- One block of `ContentProcessor::parse_srt_content`
(processor.rs:135-157): trim; skip when empty or shorter than three lines;
the second line must contain the SRT timestamp pair; the remaining lines
joined with newlines are the text. -/
def parseSrtBlock (block : List Char) : Option SubtitleEntry :=
  let b := trimChars block
  match linesRust b with
  | _num :: timing :: t0 :: rest =>
    match findTimePair ',' timing with
    | some (t1, t2) =>
      some ⟨t1, t2, String.mk (List.intercalate ['\n'] (t0 :: rest))⟩
    | none => none
  | _ => none

/-- `ContentProcessor::parse_srt_content` (processor.rs:131-166): split on
blank lines, parse each block, and reject a parse that produced zero
entries. -/
def parseSrtContent (content : String) (language : String) :
    Except YdlError ParsedSubtitles :=
  let entries := (splitDoubleNl content.toList).filterMap parseSrtBlock
  if entries.isEmpty then
    .error (.SubtitleParsing "No valid SRT entries found")
  else
    .ok ⟨entries, language, SubtitleType.Srt⟩

/-! ## The VTT parser (`parse_vtt_content`) -/

/-- The header-skipping loop of `parse_vtt_content` (processor.rs:175-182):
drop leading lines that trim to empty or start with `WEBVTT` or `NOTE`. -/
def vttHeaderSkip : List (List Char) → List (List Char)
  | [] => []
  | l :: t =>
    let lt := trimChars l
    if lt.isEmpty || "WEBVTT".toList.isPrefixOf lt || "NOTE".toList.isPrefixOf lt
    then vttHeaderSkip t
    else l :: t

/-- The cue loop of `parse_vtt_content` (processor.rs:185-212): skip blank
lines; a trimmed line containing the VTT timestamp pair opens a cue whose
text is every following line up to the next blank line (taken untrimmed);
any other line is skipped as a cue identifier. The fuel equals the number
of remaining lines, so the zero-fuel fallback is unreachable. -/
def vttCueLoop : Nat → List (List Char) → List SubtitleEntry
  | _, [] => []
  | 0, _ => []
  | fuel + 1, l :: t =>
    let lt := trimChars l
    if lt.isEmpty then vttCueLoop fuel t
    else
      match findTimePair '.' lt with
      | some (t1, t2) =>
        let textLines := t.takeWhile (fun x => !(trimChars x).isEmpty)
        let rest := t.dropWhile (fun x => !(trimChars x).isEmpty)
        ⟨t1, t2, String.mk (List.intercalate ['\n'] textLines)⟩ ::
          vttCueLoop fuel rest
      | none => vttCueLoop fuel t

/-- `ContentProcessor::parse_vtt_content` (processor.rs:169-221). -/
def parseVttContent (content : String) (language : String) :
    Except YdlError ParsedSubtitles :=
  let ls := vttHeaderSkip (linesRust content.toList)
  let entries := vttCueLoop ls.length ls
  if entries.isEmpty then
    .error (.SubtitleParsing "No valid VTT entries found")
  else
    .ok ⟨entries, language, SubtitleType.Vtt⟩

/-! ## The YouTube XML parser (`parse_youtube_xml_content`)

The two regexes of the srv3 branch —
`<p\s+t="(\d+)"(?:\s+d="(\d+)")?[^>]*>(.*?)</p>` and
`<s[^>]*>([^<]*)</s>` — and the legacy
`<text start="([^"]+)"(?:\s+dur="([^"]+)")?>([^<]*)</text>` regex are
modelled as direct scanners with the same leftmost, non-overlapping match
semantics; `.` does not match a newline, as in the Rust regex crate. -/

/-- Decimal value of a digit run. -/
def digitsVal (ds : List Char) : Nat :=
  ds.foldl (fun a c => a * 10 + charVal c) 0

/-- At least one whitespace character (`\s+`), then greedily consume the
run. -/
def wsPlus : List Char → Option (List Char)
  | c :: t => if isWS c then some (t.dropWhile isWS) else none
  | [] => none

/-- At least one digit (`(\d+)`), consumed greedily. -/
def digitsPlus (s : List Char) : Option (Nat × List Char) :=
  let ds := s.takeWhile Char.isDigit
  if ds.isEmpty then none else some (digitsVal ds, s.drop ds.length)

/-- The u64 overflow bound: `str::parse::<u64>` fails beyond it, which the
source turns into the `unwrap_or` default. -/
def U64 : Nat := 18446744073709551616

/-- The lazy inner capture `(.*?)</p>`: the shortest newline-free run up to
a literal `</p>`. -/
def lazyInnerP : List Char → Option (List Char × List Char)
  | [] => none
  | c :: t =>
    if "</p>".toList.isPrefixOf (c :: t) then some ([], (c :: t).drop 4)
    else if c = '\n' then none
    else (lazyInnerP t).map (fun p => (c :: p.1, p.2))

/-- The optional `(?:\s+d="(\d+)")?` attribute group. -/
def matchDAttr (s : List Char) : Option (Nat × List Char) := do
  let s ← wsPlus s
  let s ← dropPre "d=\"".toList s
  let (v, s) ← digitsPlus s
  let s ← expectChar '"' s
  pure (v, s)

/-- One match of the `<p ...>` regex at the head of the input, returning
the `t` capture, the optional `d` capture, the inner text and the rest of
the input after the match. -/
def matchPAt (s : List Char) : Option (Nat × Option Nat × List Char × List Char) := do
  let s ← dropPre "<p".toList s
  let s ← wsPlus s
  let s ← dropPre "t=\"".toList s
  let (tval, s) ← digitsPlus s
  let s ← expectChar '"' s
  let (dOpt, s) :=
    match matchDAttr s with
    | some (d, s') => (some d, s')
    | none => (none, s)
  let s ← expectChar '>' (s.dropWhile (fun c => !(c = '>')))
  let (inner, s) ← lazyInnerP s
  pure (tval, dOpt, inner, s)

/-- One match of the `<s ...>` word-span regex at the head of the input. -/
def matchSAt (s : List Char) : Option (List Char × List Char) := do
  let s ← dropPre "<s".toList s
  let s ← expectChar '>' (s.dropWhile (fun c => !(c = '>')))
  let word := s.takeWhile (fun c => !(c = '<'))
  let s ← dropPre "</s>".toList (s.drop word.length)
  pure (word, s)

/-- `s_regex.captures_iter` (processor.rs:259-263): every word-span
capture, left to right, non-overlapping. -/
def sScanF : Nat → List Char → List (List Char)
  | _, [] => []
  | 0, _ => []
  | fuel + 1, c :: t =>
    match matchSAt (c :: t) with
    | some (w, rest) => w :: sScanF fuel rest
    | none => sScanF fuel t

/-- The body of the srv3 capture loop (processor.rs:244-279): parse the
millisecond attributes with their `unwrap_or` defaults, assemble the text
from word spans when present, decode entities, trim, and skip an entry
whose decoded text is empty. -/
def mkPEntry (tval : Nat) (dOpt : Option Nat) (inner : List Char) :
    Option SubtitleEntry :=
  let start_ms := if tval < U64 then tval else 0
  let duration_ms :=
    match dOpt with
    | some d => if d < U64 then d else 1000
    | none => 1000
  let text :=
    if containsSub "<s".toList inner then List.flatten (sScanF inner.length inner)
    else inner
  let decoded := trimChars (decodeHtmlEntities text)
  if decoded.isEmpty then none
  else some ⟨start_ms, (start_ms + duration_ms) % U64, String.mk decoded⟩

/-- `p_regex.captures_iter` (processor.rs:244-279): all srv3 paragraph
entries, left to right. -/
def pScanF : Nat → List Char → List SubtitleEntry
  | _, [] => []
  | 0, _ => []
  | fuel + 1, c :: t =>
    match matchPAt (c :: t) with
    | some (tval, dOpt, inner, rest) =>
      match mkPEntry tval dOpt inner with
      | some e => e :: pScanF fuel rest
      | none => pScanF fuel rest
    | none => pScanF fuel t

/-- Unsigned decimal seconds at millisecond precision: models
`str::parse::<f64>` followed by `Duration::from_secs_f64` for the plain
decimal literals the legacy transcript format carries; any other shape
falls back to the same default path as an unparseable number. -/
def parseDecimalMs (s : List Char) : Option Nat :=
  let intPart := s.takeWhile Char.isDigit
  let rest := s.drop intPart.length
  if intPart.isEmpty then none
  else
    match rest with
    | [] => some (digitsVal intPart * 1000)
    | '.' :: fr =>
      if !fr.isEmpty && fr.all Char.isDigit then
        some (digitsVal intPart * 1000 + digitsVal ((fr ++ ['0', '0', '0']).take 3))
      else none
    | _ => none

/-- The optional `(?:\s+dur="([^"]+)")?` attribute group of the legacy
regex. -/
def matchDurAttr (s : List Char) : Option (List Char × List Char) := do
  let s ← wsPlus s
  let s ← dropPre "dur=\"".toList s
  let v := s.takeWhile (fun c => !(c = '"'))
  if v.isEmpty then none
  else do
    let s ← expectChar '"' (s.drop v.length)
    pure (v, s)

/-- One match of the legacy `<text ...>` regex at the head of the input. -/
def matchTextAt (s : List Char) :
    Option (List Char × Option (List Char) × List Char × List Char) := do
  let s ← dropPre "<text start=\"".toList s
  let v := s.takeWhile (fun c => !(c = '"'))
  let s ← if v.isEmpty then none else expectChar '"' (s.drop v.length)
  let (dur, s) :=
    match matchDurAttr s with
    | some (d, s') => (some d, s')
    | none => (none, s)
  let s ← expectChar '>' s
  let txt := s.takeWhile (fun c => !(c = '<'))
  let s ← dropPre "</text>".toList (s.drop txt.length)
  pure (v, dur, txt, s)

/-- The body of the legacy capture loop (processor.rs:289-305): fractional
second attributes with their defaults, entity decoding, no trimming and no
empty-text check. -/
def mkTextEntry (v : List Char) (dur : Option (List Char)) (txt : List Char) :
    SubtitleEntry :=
  let start_ms := (parseDecimalMs v).getD 0
  let dur_ms :=
    match dur with
    | some d => (parseDecimalMs d).getD 1000
    | none => 1000
  ⟨start_ms, start_ms + dur_ms, String.mk (decodeHtmlEntities txt)⟩

/-- `text_regex.captures_iter` (processor.rs:289-305): all legacy text
entries, left to right. -/
def textScanF : Nat → List Char → List SubtitleEntry
  | _, [] => []
  | 0, _ => []
  | fuel + 1, c :: t =>
    match matchTextAt (c :: t) with
    | some (v, dur, txt, rest) => mkTextEntry v dur txt :: textScanF fuel rest
    | none => textScanF fuel t

/-- `ContentProcessor::parse_youtube_xml_content` (processor.rs:224-315):
the srv3 paragraph schema first; the legacy text-element schema only when
that produced zero entries; zero entries overall is a terminal error. -/
def parseYoutubeXmlContent (content : String) (language : String) :
    Except YdlError ParsedSubtitles :=
  let cs := content.toList
  let entries := pScanF cs.length cs
  let entries := if entries.isEmpty then textScanF cs.length cs else entries
  if entries.isEmpty then
    .error (.SubtitleParsing "No valid XML transcript entries found")
  else
    .ok ⟨entries, language, SubtitleType.Raw⟩

/-! ## The plain-text parser (`parse_plain_text_content`) -/

/-- `ContentProcessor::parse_plain_text_content` (processor.rs:318-343):
every line with non-blank content becomes an entry with a synthetic
3-second duration, consecutively from offset zero. -/
def parsePlainTextContent (content : String) (language : String) :
    Except YdlError ParsedSubtitles :=
  let ls := (linesRust content.toList).filter (fun l => !(trimChars l).isEmpty)
  if ls.isEmpty then
    .error (.SubtitleParsing "No content found in plain text")
  else
    let entries := ls.enum.map
      (fun p => (⟨p.1 * 3000, p.1 * 3000 + 3000, String.mk p.2⟩ : SubtitleEntry))
    .ok ⟨entries, language, SubtitleType.Txt⟩

/-! ## Format detection (`parse_subtitle_content`) -/

/-- `ContentProcessor::parse_subtitle_content` (processor.rs:111-128): the
ordered signature cascade dispatching to one parser. -/
def parseSubtitleContent (content : String) (language : String) :
    Except YdlError ParsedSubtitles :=
  if strContains content "WEBVTT" then
    parseVttContent content language
  else if strContains content "<?xml" || strContains content "<transcript" then
    parseYoutubeXmlContent content language
  else if (findTimePair ',' content.toList).isSome then
    parseSrtContent content language
  else if strContains content "-->" then
    parseVttContent content language
  else
    parsePlainTextContent content language

/-- The four parser variants the detector can dispatch to. -/
inductive ParserKind where
  | vtt
  | xml
  | srt
  | plain
deriving DecidableEq, Repr

/-- Run the parser a detected kind names. -/
def runParserKind : ParserKind → String → String → Except YdlError ParsedSubtitles
  | .vtt => parseVttContent
  | .xml => parseYoutubeXmlContent
  | .srt => parseSrtContent
  | .plain => parsePlainTextContent

/-- The ordered content-signature table of the detector: header token,
XML markers, comma-decimal timestamp pair, bare arrow separator. -/
def signatureTable : List ((String → Bool) × ParserKind) :=
  [ (fun c => strContains c "WEBVTT", ParserKind.vtt),
    (fun c => strContains c "<?xml" || strContains c "<transcript", ParserKind.xml),
    (fun c => (findTimePair ',' c.toList).isSome, ParserKind.srt),
    (fun c => strContains c "-->", ParserKind.vtt) ]

/-- First-match-wins detection over the signature table, defaulting to the
plain-line parser. -/
def detectParserKind (content : String) : ParserKind :=
  ((signatureTable.find? (fun p => p.1 content)).map (fun p => p.2)).getD
    ParserKind.plain

/-! ## Canonicity for the SRT round trip -/

/-- The side conditions under which one encoded SRT block survives the
splitting, trimming and line-breaking of the parser unchanged: offsets
below the 100-hour two-digit limit, and a non-empty text with no carriage
return, no blank line inside it, no leading newline and no trailing
whitespace. -/
def CanonicalEntry (e : SubtitleEntry) : Prop :=
  e.start < 360000000 ∧ e.endT < 360000000 ∧
  e.text.toList ≠ [] ∧
  (∀ c ∈ e.text.toList, c ≠ '\r') ∧
  containsSub ['\n', '\n'] e.text.toList = false ∧
  e.text.toList.head? ≠ some '\n' ∧
  e.text.toList.getLast?.all (fun c => !isWS c) = true

instance (e : SubtitleEntry) : Decidable (CanonicalEntry e) := by
  unfold CanonicalEntry; infer_instance

deriving instance DecidableEq for Except

/-! # Theorems -/

/-! ## Generic helper lemmas -/

theorem modifyHead_cons {α : Type} (f : List α → List α) (x : List α)
    (r : List (List α)) : (x :: r).modifyHead f = f x :: r := rfl

theorem modifyHead_fun_id {α : Type} (l : List (List α)) :
    l.modifyHead (fun h => h) = l := by
  cases l <;> rfl

theorem modifyHead_modifyHead {α : Type} (f g : List α → List α)
    (l : List (List α)) :
    (l.modifyHead f).modifyHead g = l.modifyHead (fun h => g (f h)) := by
  cases l <;> rfl

theorem find?_congr {α : Type} (p q : α → Bool) (l : List α)
    (h : ∀ a, p a = q a) : l.find? p = l.find? q := by
  induction l with
  | nil => rfl
  | cons a t ih => simp only [List.find?, h a]; cases q a <;> simp [ih]

/-! ## C4: the timing validator -/

theorem validateTimingGo_ok_iff (entries : List SubtitleEntry) :
    ∀ i, validateTimingGo i entries = .ok () ↔
      ∀ e ∈ entries, e.start < e.endT := by
  induction entries with
  | nil => intro i; simp [validateTimingGo]
  | cons e rest ih =>
    intro i
    simp only [validateTimingGo, List.forall_mem_cons]
    by_cases h : e.start ≥ e.endT
    · rw [if_pos h]
      constructor
      · intro hx; exact absurd hx (by simp)
      · intro hx; omega
    · rw [if_neg h, ih]
      constructor
      · intro hx; exact ⟨by omega, hx⟩
      · intro hx; exact hx.2

/-- C4: for every entry list, the timing validator returns an error if and
only if some entry has a start offset at or beyond its end offset; short
durations, long durations and overlaps are warnings only and never cause an
error (they do not influence the returned value at all). -/
theorem validateTiming_error_iff (entries : List SubtitleEntry) :
    (validateTiming entries).isOk = false ↔
      ∃ e ∈ entries, e.start ≥ e.endT := by
  unfold validateTiming
  by_cases h : entries.isEmpty
  · rw [if_pos h]
    rw [List.isEmpty_iff] at h
    subst h
    simp [Except.isOk, Except.toBool]
  · rw [if_neg h]
    have h2 := validateTimingGo_ok_iff entries 0
    constructor
    · intro hx
      by_contra hall
      push_neg at hall
      have : validateTimingGo 0 entries = .ok () := h2.2 (by
        intro e he; have := hall e he; omega)
      rw [this] at hx
      simp [Except.isOk, Except.toBool] at hx
    · intro ⟨e, he, hge⟩
      cases hgo : validateTimingGo 0 entries with
      | ok u =>
        cases u
        have := (h2.1 hgo) e he
        omega
      | error err => simp [Except.isOk, Except.toBool]

/-! ## C10: the sanitizer's frame -/

/-- C10: the sanitizer maps each entry to an entry with the same start and
end offsets, preserving the length and order of the list; only the text
field changes. -/
theorem cleanSubtitleEntries_preserves_timing (entries : List SubtitleEntry) :
    (cleanSubtitleEntries entries).map (fun e => (e.start, e.endT)) =
      entries.map (fun e => (e.start, e.endT)) ∧
    (cleanSubtitleEntries entries).length = entries.length := by
  unfold cleanSubtitleEntries
  constructor
  · rw [List.map_map]; rfl
  · rw [List.length_map]

/-! ## C1 and C9: track filtering -/

theorem filterTracks_eq (opts : YdlOptions) (tracks : List SubtitleTrack)
    (vid : String) :
    filterTracks opts tracks vid =
      if tracks.isEmpty then .error (.NoSubtitlesAvailable vid)
      else if (manualStep opts (autoStep opts (langStep opts tracks))).isEmpty
      then
        if !opts.allow_auto_generated then .error (.OnlyAutoGenerated vid)
        else .error (.NoSubtitlesAvailable vid)
      else .ok (manualStep opts (autoStep opts (langStep opts tracks))) := rfl

/-- C9: a successful filtering result is never the empty track list, so a
successful discovery result (whose final step is `filter_tracks`) is
non-empty and the caller-side emptiness checks cannot fire. -/
theorem filterTracks_ok_nonempty (opts : YdlOptions)
    (tracks : List SubtitleTrack) (vid : String) (l : List SubtitleTrack)
    (h : filterTracks opts tracks vid = .ok l) : l ≠ [] := by
  rw [filterTracks_eq] at h
  split at h
  · cases h
  · split at h
    · split at h <;> cases h
    · rename_i hne
      injection h with h'
      subst h'
      intro hnil
      rw [hnil] at hne
      simp at hne

/-- Concrete instantiation of `filterTracks_ok_nonempty`: a one-track list
filters successfully to itself, which is non-empty. -/
theorem filterTracks_ok_nonempty_witness :
    ([⟨"en", "English", SubtitleTrackType.Manual, none, false⟩] :
      List SubtitleTrack) ≠ [] :=
  filterTracks_ok_nonempty ⟨none, true, true⟩
    [⟨"en", "English", SubtitleTrackType.Manual, none, false⟩] "vid"
    [⟨"en", "English", SubtitleTrackType.Manual, none, false⟩] (by decide)

/-- C1 counterexample: with preferred language "en", auto-generated
disallowed, an auto-generated "en" track and a manual "es" track, the
source filters by language first (keeping the auto "en" track) and then
drops it, failing with `OnlyAutoGenerated`, while the claimed
auto-drop-first order would keep the manual "es" track and succeed. -/
theorem filterTracks_order_counterexample :
    filterTracks ⟨some "en", false, false⟩
        [⟨"en", "English (auto)", SubtitleTrackType.AutoGenerated, none, false⟩,
         ⟨"es", "Spanish", SubtitleTrackType.Manual, none, false⟩] "vid" ≠
      filterTracksSpecOrder ⟨some "en", false, false⟩
        [⟨"en", "English (auto)", SubtitleTrackType.AutoGenerated, none, false⟩,
         ⟨"es", "Spanish", SubtitleTrackType.Manual, none, false⟩] "vid" := by
  decide

theorem langStep_isEmpty (opts : YdlOptions) (tracks : List SubtitleTrack) :
    (langStep opts tracks).isEmpty = tracks.isEmpty := by
  unfold langStep
  cases opts.language with
  | none => rfl
  | some lang =>
    dsimp only
    split
    · rfl
    · rename_i hne
      rw [Bool.not_eq_true] at hne
      rw [hne]
      cases tracks with
      | nil => simp at hne
      | cons a t => rfl

theorem manualStep_isEmpty (opts : YdlOptions) (l : List SubtitleTrack) :
    (manualStep opts l).isEmpty = l.isEmpty := by
  unfold manualStep
  split
  · dsimp only
    split
    · rfl
    · rename_i hne
      rw [Bool.not_eq_true] at hne
      rw [hne]
      cases l with
      | nil => simp at hne
      | cons a t => rfl
  · rfl

theorem autoStep_eq_nil_iff (opts : YdlOptions) (l : List SubtitleTrack) :
    autoStep opts l = [] ↔
      l = [] ∨ (opts.allow_auto_generated = false ∧
        ∀ t ∈ l, t.track_type = SubtitleTrackType.AutoGenerated) := by
  unfold autoStep
  cases ha : opts.allow_auto_generated with
  | true => simp [ha]
  | false =>
    rw [if_pos (show (!false) = true from rfl)]
    rw [List.filter_eq_nil_iff]
    constructor
    · intro hall
      right
      refine ⟨rfl, fun t ht => ?_⟩
      have := hall t ht
      simpa using this
    · rintro (rfl | ⟨-, hall⟩)
      · simp
      · intro t ht
        simpa using hall t ht

/-- C1 amended: track filtering applies its narrowing steps in the order
language first (only if that leaves a non-empty subset), then the
unconditional drop of auto-generated tracks when disallowed, then the
manual narrowing (only if that leaves a non-empty subset); the language
and manual steps never empty a non-empty set, and the auto-generated drop
empties the set exactly when every track that survived the language step
was auto-generated (not necessarily every original track), in which case
`OnlyAutoGenerated` is reported. -/
theorem filterTracks_amended (opts : YdlOptions)
    (tracks : List SubtitleTrack) (vid : String) :
    (filterTracks opts tracks vid =
      if tracks.isEmpty then .error (.NoSubtitlesAvailable vid)
      else if (manualStep opts (autoStep opts (langStep opts tracks))).isEmpty
      then
        if !opts.allow_auto_generated then .error (.OnlyAutoGenerated vid)
        else .error (.NoSubtitlesAvailable vid)
      else .ok (manualStep opts (autoStep opts (langStep opts tracks)))) ∧
    (langStep opts tracks).isEmpty = tracks.isEmpty ∧
    (∀ l, (manualStep opts l).isEmpty = l.isEmpty) ∧
    (∀ l, autoStep opts l = [] ↔
      l = [] ∨ (opts.allow_auto_generated = false ∧
        ∀ t ∈ l, t.track_type = SubtitleTrackType.AutoGenerated)) :=
  ⟨filterTracks_eq opts tracks vid, langStep_isEmpty opts tracks,
   fun l => manualStep_isEmpty opts l, fun l => autoStep_eq_nil_iff opts l⟩

/-! ## C2: track selection -/

/-- C2 counterexample: with preferred language "en" but the prefer-manual
preference disabled, and the auto-generated "en" track listed before the
manual "en" track, the source returns the auto-generated track (the
manual-in-language step is gated on the preference), while the claimed
ungated priority would return the manual track. -/
theorem selectBestTrack_counterexample :
    selectBestTrack ⟨some "en", true, false⟩
        [⟨"en", "English (auto)", SubtitleTrackType.AutoGenerated, none, false⟩,
         ⟨"en", "English", SubtitleTrackType.Manual, none, false⟩] ≠
      selectBestTrackSpecClaim ⟨some "en", true, false⟩
        [⟨"en", "English (auto)", SubtitleTrackType.AutoGenerated, none, false⟩,
         ⟨"en", "English", SubtitleTrackType.Manual, none, false⟩] := by
  decide

theorem string_beq_comm (a b : String) : (a == b) = (b == a) := by
  by_cases h : a = b
  · rw [h]
  · rw [beq_eq_false_iff_ne.2 h, beq_eq_false_iff_ne.2 (fun hh => h hh.symm)]

/-- C2 amended: selection returns the first track in the priority order
manual-in-preferred-language, any-in-preferred-language, any-manual,
first-in-discovery-order, where the two manual-preferring steps apply only
when the prefer-manual preference is enabled (and the language steps match
nothing when no language is preferred). -/
theorem selectBestTrack_amended (opts : YdlOptions)
    (tracks : List SubtitleTrack) :
    selectBestTrack opts tracks =
      ((if opts.prefer_manual then
          tracks.find? (fun t => opts.language == some t.language_code &&
            t.track_type == SubtitleTrackType.Manual)
        else none) <|>
       ((tracks.find? (fun t => opts.language == some t.language_code)) <|>
        ((if opts.prefer_manual then
            tracks.find? (fun t => t.track_type == SubtitleTrackType.Manual)
          else none) <|>
         tracks.head?))) := by
  rcases opts with ⟨olang, oallow, oprefer⟩
  unfold selectBestTrack
  cases olang with
  | none =>
    have hfalse : ∀ (p : SubtitleTrack → Bool),
        tracks.find? (fun t =>
          ((none : Option String) == some t.language_code) && p t) = none := by
      intro p
      apply List.find?_eq_none.2
      intro x _
      simp
    have hfalse2 : tracks.find?
        (fun t => ((none : Option String) == some t.language_code)) = none := by
      apply List.find?_eq_none.2
      intro x _
      simp
    cases tracks with
    | nil => simp
    | cons a ts =>
      rw [hfalse, hfalse2]
      simp only [Option.none_orElse, List.isEmpty_cons]
      rw [if_neg (by simp)]
      cases oprefer <;> dsimp only <;>
        cases hm : (a :: ts).find?
            (fun t => t.track_type == SubtitleTrackType.Manual) <;>
          simp [hm]
  | some lang =>
    have hcongr1 : tracks.find? (fun t => t.language_code == lang &&
        t.track_type == SubtitleTrackType.Manual) =
        tracks.find? (fun t => (some lang == some t.language_code) &&
          t.track_type == SubtitleTrackType.Manual) := by
      apply find?_congr
      intro t
      show (t.language_code == lang && _) = ((lang == t.language_code) && _)
      rw [string_beq_comm]
    have hcongr2 : tracks.find? (fun t => t.language_code == lang) =
        tracks.find? (fun t => (some lang == some t.language_code)) := by
      apply find?_congr
      intro t
      show (t.language_code == lang) = (lang == t.language_code)
      rw [string_beq_comm]
    cases tracks with
    | nil => simp
    | cons a ts =>
      rw [if_neg (by simp)]
      dsimp only
      rw [← hcongr1, ← hcongr2]
      cases oprefer with
      | false =>
        cases hl : (a :: ts).find? (fun t => t.language_code == lang) with
        | some t => simp [hl]
        | none =>
          cases hm : (a :: ts).head? <;> simp [hl, hm]
      | true =>
        cases hml : (a :: ts).find? (fun t => t.language_code == lang &&
            t.track_type == SubtitleTrackType.Manual) with
        | some t => simp [hml]
        | none =>
          cases hl : (a :: ts).find? (fun t => t.language_code == lang) with
          | some t => simp [hml, hl]
          | none =>
            cases hm : (a :: ts).find?
                (fun t => t.track_type == SubtitleTrackType.Manual) <;>
              simp [hml, hl, hm]

/-! ## C5: format detection dispatch -/

/-- C5: the dispatcher of `parse_subtitle_content` equals first-match-wins
detection over the ordered signature table — WEBVTT header token to the
structured (VTT) parser, XML prolog or transcript root to the timed-text
XML parser, a comma-decimal timestamp arrow pattern to the numbered-block
(SRT) parser, a bare arrow separator to the structured parser, and the
plain-line parser otherwise. -/
theorem parseSubtitleContent_detect (content lang : String) :
    parseSubtitleContent content lang =
      runParserKind (detectParserKind content) content lang := by
  unfold parseSubtitleContent detectParserKind signatureTable
  by_cases h1 : strContains content "WEBVTT" = true
  · simp [h1, List.find?, runParserKind]
  · by_cases h2 :
      (strContains content "<?xml" || strContains content "<transcript") = true
    · simp [h1, h2, List.find?, runParserKind]
    · by_cases h3 : (findTimePair ',' content.data).isSome = true
      · simp [String.toList, h1, h2, h3, List.find?, runParserKind]
      · by_cases h4 : strContains content "-->" = true
        · simp [String.toList, h1, h2, h3, h4, List.find?, runParserKind]
        · simp [String.toList, h1, h2, h3, h4, List.find?, runParserKind]

/-! ## C6: zero parsed entries is always an error -/

theorem guard_ok_nonempty (err : YdlError) (E : List SubtitleEntry)
    (lg : String) (fmt : SubtitleType) (p : ParsedSubtitles)
    (h : (if E.isEmpty then Except.error err
          else Except.ok (⟨E, lg, fmt⟩ : ParsedSubtitles)) = .ok p) :
    p.entries ≠ [] := by
  split at h
  · cases h
  · rename_i hne
    injection h with h'
    subst h'
    intro hnil
    exact hne (List.isEmpty_iff.2 hnil)

theorem parseSrtContent_ok_nonempty (c l : String) (p : ParsedSubtitles)
    (h : parseSrtContent c l = .ok p) : p.entries ≠ [] := by
  simp only [parseSrtContent] at h
  exact guard_ok_nonempty _ _ _ _ _ h

theorem parseVttContent_ok_nonempty (c l : String) (p : ParsedSubtitles)
    (h : parseVttContent c l = .ok p) : p.entries ≠ [] := by
  simp only [parseVttContent] at h
  exact guard_ok_nonempty _ _ _ _ _ h

theorem parseYoutubeXmlContent_ok_nonempty (c l : String) (p : ParsedSubtitles)
    (h : parseYoutubeXmlContent c l = .ok p) : p.entries ≠ [] := by
  simp only [parseYoutubeXmlContent] at h
  exact guard_ok_nonempty _ _ _ _ _ h

theorem parsePlainTextContent_ok_nonempty (c l : String) (p : ParsedSubtitles)
    (h : parsePlainTextContent c l = .ok p) : p.entries ≠ [] := by
  simp only [parsePlainTextContent] at h
  split at h
  · cases h
  · rename_i hne
    injection h with h'
    subst h'
    intro hnil
    apply hne
    rw [List.isEmpty_iff]
    have hlen := congrArg List.length hnil
    simp only [List.length_map, List.enum_length, List.length_nil] at hlen
    exact List.length_eq_zero.1 hlen

theorem parseSubtitleContent_ok_nonempty (c l : String) (p : ParsedSubtitles)
    (h : parseSubtitleContent c l = .ok p) : p.entries ≠ [] := by
  unfold parseSubtitleContent at h
  split at h
  · exact parseVttContent_ok_nonempty c l p h
  · split at h
    · exact parseYoutubeXmlContent_ok_nonempty c l p h
    · split at h
      · exact parseSrtContent_ok_nonempty c l p h
      · split at h
        · exact parseVttContent_ok_nonempty c l p h
        · exact parsePlainTextContent_ok_nonempty c l p h

/-- C6: no parser branch — numbered-block, structured, timed-text XML,
plain-line, or the dispatching entry point — ever returns an empty entry
list as a success; zero extracted entries always produce an error. -/
theorem parse_zero_entries_error (c l : String) (p : ParsedSubtitles) :
    (parseSrtContent c l = .ok p → p.entries ≠ []) ∧
    (parseVttContent c l = .ok p → p.entries ≠ []) ∧
    (parseYoutubeXmlContent c l = .ok p → p.entries ≠ []) ∧
    (parsePlainTextContent c l = .ok p → p.entries ≠ []) ∧
    (parseSubtitleContent c l = .ok p → p.entries ≠ []) :=
  ⟨parseSrtContent_ok_nonempty c l p, parseVttContent_ok_nonempty c l p,
   parseYoutubeXmlContent_ok_nonempty c l p,
   parsePlainTextContent_ok_nonempty c l p,
   parseSubtitleContent_ok_nonempty c l p⟩

/-- Concrete instantiations of `parse_zero_entries_error`, one successful
parse per branch, each with a non-empty result. -/
theorem parse_zero_entries_error_witness :
    (⟨[⟨1000, 3000, "Hi"⟩], "en", SubtitleType.Srt⟩ :
        ParsedSubtitles).entries ≠ [] ∧
    (⟨[⟨1000, 3000, "Hi"⟩], "en", SubtitleType.Vtt⟩ :
        ParsedSubtitles).entries ≠ [] ∧
    (⟨[⟨1000, 2000, "x"⟩], "en", SubtitleType.Raw⟩ :
        ParsedSubtitles).entries ≠ [] ∧
    (⟨[⟨0, 3000, "Hi"⟩], "en", SubtitleType.Txt⟩ :
        ParsedSubtitles).entries ≠ [] ∧
    (⟨[⟨0, 3000, "Hi"⟩], "en", SubtitleType.Txt⟩ :
        ParsedSubtitles).entries ≠ [] :=
  ⟨(parse_zero_entries_error "1\n00:00:01,000 --> 00:00:03,000\nHi" "en"
      _).1 (by decide),
   (parse_zero_entries_error "WEBVTT\n\n00:00:01.000 --> 00:00:03.000\nHi"
      "en" _).2.1 (by decide),
   (parse_zero_entries_error "<text start=\"1\">x</text>" "en" _).2.2.1
     (by decide),
   (parse_zero_entries_error "Hi" "en" _).2.2.2.1 (by decide),
   (parse_zero_entries_error "Hi" "en" _).2.2.2.2 (by decide)⟩

/-! ## C7: the retry wrapper -/

theorem retryGo_stops_nonretryable (outcomes : Nat → Except YdlError String)
    (maxRetries : Nat) :
    ∀ (j r : Nat) (e : YdlError), r + j ≤ maxRetries →
      (∀ k, k < j → ∃ e', outcomes (r + k) = .error e' ∧
        e'.isRetryable = true) →
      outcomes (r + j) = .error e → e.isRetryable = false →
      retryGo outcomes maxRetries r (maxRetries - r) = .error e := by
  intro j
  induction j with
  | zero =>
    intro r e hle hpre hout hnr
    rw [Nat.add_zero] at hout
    rw [retryGo, hout]
    simp [hnr]
  | succ j ih =>
    intro r e hle hpre hout hnr
    obtain ⟨e0, he0, hr0⟩ := hpre 0 (by omega)
    rw [Nat.add_zero] at he0
    rw [retryGo, he0]
    dsimp only
    rw [if_neg (show ¬ maxRetries ≤ r by omega), if_pos hr0]
    rw [show maxRetries - r = (maxRetries - (r + 1)) + 1 from by omega]
    exact ih (r + 1) e (by omega)
      (fun k hk => by
        rw [show r + 1 + k = r + (k + 1) from by omega]
        exact hpre (k + 1) (by omega))
      (by rw [show r + 1 + j = r + (j + 1) from by omega]; exact hout) hnr

theorem retryGo_stops_ok (outcomes : Nat → Except YdlError String)
    (maxRetries : Nat) :
    ∀ (j r : Nat) (c : String), r + j ≤ maxRetries →
      (∀ k, k < j → ∃ e', outcomes (r + k) = .error e' ∧
        e'.isRetryable = true) →
      outcomes (r + j) = .ok c →
      retryGo outcomes maxRetries r (maxRetries - r) = .ok c := by
  intro j
  induction j with
  | zero =>
    intro r c hle hpre hout
    rw [Nat.add_zero] at hout
    rw [retryGo, hout]
  | succ j ih =>
    intro r c hle hpre hout
    obtain ⟨e0, he0, hr0⟩ := hpre 0 (by omega)
    rw [Nat.add_zero] at he0
    rw [retryGo, he0]
    dsimp only
    rw [if_neg (show ¬ maxRetries ≤ r by omega), if_pos hr0]
    rw [show maxRetries - r = (maxRetries - (r + 1)) + 1 from by omega]
    exact ih (r + 1) c (by omega)
      (fun k hk => by
        rw [show r + 1 + k = r + (k + 1) from by omega]
        exact hpre (k + 1) (by omega))
      (by rw [show r + 1 + j = r + (j + 1) from by omega]; exact hout)

theorem retryGo_exhausts (outcomes : Nat → Except YdlError String)
    (maxRetries : Nat) :
    ∀ (fuel r : Nat), fuel = maxRetries - r → r ≤ maxRetries →
      (∀ k, r ≤ k → k ≤ maxRetries → ∃ e', outcomes k = .error e' ∧
        e'.isRetryable = true) →
      ∃ e', outcomes maxRetries = .error e' ∧
        retryGo outcomes maxRetries r fuel = .error e' := by
  intro fuel
  induction fuel with
  | zero =>
    intro r hf hr hall
    have heq : r = maxRetries := by omega
    subst heq
    obtain ⟨e', he', hre⟩ := hall r (le_refl r) (le_refl r)
    refine ⟨e', he', ?_⟩
    rw [retryGo, he']
    simp
  | succ f ihf =>
    intro r hf hr hall
    obtain ⟨e0, he0, hr0⟩ := hall r (le_refl r) hr
    obtain ⟨e', he', hres⟩ := ihf (r + 1) (by omega) (by omega)
      (fun k hk1 hk2 => hall k (by omega) hk2)
    refine ⟨e', he', ?_⟩
    rw [retryGo, he0]
    dsimp only
    rw [if_neg (show ¬ maxRetries ≤ r by omega), if_pos hr0]
    exact hres

/-- C7: the retry wrapper returns a non-retryable error immediately (it is
the result no matter how later attempts would behave, even at the last
allowed attempt), retries only retryable errors — so a success after only
retryable errors within the bound is returned — and at most max-retries
retries happen: when every attempt up to the bound fails retryably, the
result is the last observed error, the one of attempt `maxRetries`. -/
theorem subtitleWithRetry_classification (maxRetries : Nat)
    (outcomes : Nat → Except YdlError String) :
    (∀ j e, j ≤ maxRetries →
       (∀ k, k < j → ∃ e', outcomes k = .error e' ∧ e'.isRetryable = true) →
       outcomes j = .error e → e.isRetryable = false →
       subtitleWithRetry outcomes maxRetries = .error e) ∧
    (∀ j c, j ≤ maxRetries →
       (∀ k, k < j → ∃ e', outcomes k = .error e' ∧ e'.isRetryable = true) →
       outcomes j = .ok c →
       subtitleWithRetry outcomes maxRetries = .ok c) ∧
    ((∀ k, k ≤ maxRetries → ∃ e', outcomes k = .error e' ∧
        e'.isRetryable = true) →
       ∃ e', outcomes maxRetries = .error e' ∧
         subtitleWithRetry outcomes maxRetries = .error e') := by
  refine ⟨?_, ?_, ?_⟩
  · intro j e hj hpre hout hnr
    have h := retryGo_stops_nonretryable outcomes maxRetries j 0 e
      (by omega) (fun k hk => by simpa using hpre k hk) (by simpa using hout)
      hnr
    simpa [subtitleWithRetry] using h
  · intro j c hj hpre hout
    have h := retryGo_stops_ok outcomes maxRetries j 0 c
      (by omega) (fun k hk => by simpa using hpre k hk) (by simpa using hout)
    simpa [subtitleWithRetry] using h
  · intro hall
    have h := retryGo_exhausts outcomes maxRetries maxRetries 0
      (by omega) (by omega) (fun k _ hk2 => hall k hk2)
    simpa [subtitleWithRetry] using h

/-- Concrete instantiation of `subtitleWithRetry_classification`: one
rate-limited (retryable) failure followed by a video-not-found
(non-retryable) failure ends the run immediately with the non-retryable
error, with one retry still unspent. -/
theorem subtitleWithRetry_classification_witness :
    subtitleWithRetry
      (fun k => if k = 0 then .error (.RateLimited 1)
                else .error (.VideoNotFound "x")) 2 =
      .error (.VideoNotFound "x") :=
  (subtitleWithRetry_classification 2
      (fun k => if k = 0 then .error (.RateLimited 1)
                else .error (.VideoNotFound "x"))).1 1 (.VideoNotFound "x")
    (by omega)
    (fun k hk => ⟨.RateLimited 1, by
      have hk0 : k = 0 := by omega
      subst hk0
      exact ⟨rfl, rfl⟩⟩)
    rfl rfl

/-! ## C8: the sanitizer's entity set versus the parser's decoder -/

theorem replaceAllF_id_of_no_head (pat repl : List Char) (a : Char)
    (hpat : pat.head? = some a) :
    ∀ (fuel : Nat) (s : List Char), (∀ c ∈ s, c ≠ a) →
      replaceAllF pat repl fuel s = s := by
  intro fuel
  induction fuel with
  | zero => intro s _; cases s <;> rfl
  | succ f ih =>
    intro s hs
    cases s with
    | nil => rfl
    | cons c t =>
      rw [replaceAllF]
      have hpre : pat.isPrefixOf (c :: t) = false := by
        cases pat with
        | nil => cases hpat
        | cons p pt =>
          have hpa : p = a := by simpa using hpat
          subst hpa
          have hca := hs c (List.mem_cons_self c t)
          have hba : (p == c) = false :=
            beq_eq_false_iff_ne.2 (fun hh => hca hh.symm)
          simp [List.isPrefixOf, hba]
      rw [if_neg (by simp [hpre])]
      rw [ih t (fun x hx => hs x (List.mem_cons_of_mem c hx))]

theorem cleanEntityPass_id_of_no_amp (s : List Char)
    (h : ∀ c ∈ s, c ≠ '&') : cleanEntityPass s = s := by
  simp only [cleanEntityPass, replaceAll]
  rw [replaceAllF_id_of_no_head "&lt;".toList "<".toList '&' rfl _ s h,
      replaceAllF_id_of_no_head "&gt;".toList ">".toList '&' rfl _ s h,
      replaceAllF_id_of_no_head "&amp;".toList "&".toList '&' rfl _ s h,
      replaceAllF_id_of_no_head "&quot;".toList "\"".toList '&' rfl _ s h,
      replaceAllF_id_of_no_head "&#39;".toList "'".toList '&' rfl _ s h]

theorem decodeHtmlEntities_id_of_no_amp (s : List Char)
    (h : ∀ c ∈ s, c ≠ '&') : decodeHtmlEntities s = s := by
  simp only [decodeHtmlEntities, replaceAll]
  rw [replaceAllF_id_of_no_head "&amp;".toList "&".toList '&' rfl _ s h,
      replaceAllF_id_of_no_head "&lt;".toList "<".toList '&' rfl _ s h,
      replaceAllF_id_of_no_head "&gt;".toList ">".toList '&' rfl _ s h,
      replaceAllF_id_of_no_head "&quot;".toList "\"".toList '&' rfl _ s h,
      replaceAllF_id_of_no_head "&#39;".toList "'".toList '&' rfl _ s h,
      replaceAllF_id_of_no_head "&#x27;".toList "'".toList '&' rfl _ s h,
      replaceAllF_id_of_no_head "&apos;".toList "'".toList '&' rfl _ s h]

/-- C8 counterexample: on the apostrophe reference `&apos;` the sanitizer
replaces nothing while the parser's entity decoder produces a single
apostrophe — the two do not decode the same entity set. -/
theorem cleanText_decode_disagree :
    cleanText "&apos;".toList ≠ decodeHtmlEntities "&apos;".toList := by
  decide

/-- C8 amended: the sanitizer's entity pass decodes exactly the five
references `&lt;`, `&gt;`, `&amp;`, `&quot;`, `&#39;`, a strict subset of
the parser's decoder, which additionally decodes `&#x27;` and `&apos;`;
on ampersand-free text both replace nothing, and on each shared reference
standing alone they agree. -/
theorem sanitizer_entity_set :
    (∀ s : List Char, (∀ c ∈ s, c ≠ '&') →
      cleanEntityPass s = s ∧ decodeHtmlEntities s = s) ∧
    (cleanEntityPass "&lt;".toList = "<".toList ∧
      decodeHtmlEntities "&lt;".toList = "<".toList) ∧
    (cleanEntityPass "&gt;".toList = ">".toList ∧
      decodeHtmlEntities "&gt;".toList = ">".toList) ∧
    (cleanEntityPass "&amp;".toList = "&".toList ∧
      decodeHtmlEntities "&amp;".toList = "&".toList) ∧
    (cleanEntityPass "&quot;".toList = "\"".toList ∧
      decodeHtmlEntities "&quot;".toList = "\"".toList) ∧
    (cleanEntityPass "&#39;".toList = "'".toList ∧
      decodeHtmlEntities "&#39;".toList = "'".toList) ∧
    (cleanEntityPass "&#x27;".toList = "&#x27;".toList ∧
      decodeHtmlEntities "&#x27;".toList = "'".toList) ∧
    (cleanEntityPass "&apos;".toList = "&apos;".toList ∧
      decodeHtmlEntities "&apos;".toList = "'".toList) :=
  ⟨fun s h => ⟨cleanEntityPass_id_of_no_amp s h,
    decodeHtmlEntities_id_of_no_amp s h⟩, by decide⟩

/-- Concrete instantiation of `sanitizer_entity_set`: ampersand-free text
passes through both the sanitizer's entity pass and the parser's decoder
unchanged. -/
theorem sanitizer_entity_set_witness :
    cleanEntityPass "abc".toList = "abc".toList ∧
      decodeHtmlEntities "abc".toList = "abc".toList :=
  (sanitizer_entity_set).1 "abc".toList (by decide)

/-! ## C3: the SRT round trip — infrastructure lemmas -/

theorem getLast?_ne_of_forall {l : List Char} {x : Char}
    (h : ∀ c ∈ l, c ≠ x) : l.getLast? ≠ some x := by
  intro hx
  obtain ⟨hne, heq⟩ := List.mem_getLast?_eq_getLast (Option.mem_def.2 hx)
  exact h x (heq ▸ List.getLast_mem hne) rfl

theorem splitNl_ne_nil (s : List Char) : splitNl s ≠ [] := by
  induction s with
  | nil => simp [splitNl]
  | cons c t ih =>
    simp only [splitNl]
    split
    · simp
    · cases h : splitNl t with
      | nil => exact absurd h ih
      | cons a r => simp

theorem splitNl_append_noNl (d r : List Char) (hd : ∀ c ∈ d, c ≠ '\n') :
    splitNl (d ++ r) = (splitNl r).modifyHead (fun h => d ++ h) := by
  induction d with
  | nil =>
    cases h : splitNl r with
    | nil => simpa using h
    | cons a l => simpa using h
  | cons c d' ih =>
    have hc : c ≠ '\n' := hd c (List.mem_cons_self c d')
    simp only [List.cons_append, splitNl, if_neg hc, List.append_eq]
    rw [ih (fun x hx => hd x (List.mem_cons_of_mem _ hx))]
    rw [modifyHead_modifyHead]

theorem splitNl_chars (s : List Char) :
    ∀ u ∈ splitNl s, ∀ c ∈ u, c ∈ s := by
  induction s with
  | nil =>
    intro u hu c hc
    simp [splitNl] at hu
    subst hu
    simp at hc
  | cons a t ih =>
    intro u hu c hc
    simp only [splitNl] at hu
    by_cases ha : a = '\n'
    · rw [if_pos ha] at hu
      rcases List.mem_cons.1 hu with rfl | hu'
      · simp at hc
      · exact List.mem_cons_of_mem a (ih u hu' c hc)
    · rw [if_neg ha] at hu
      cases hsp : splitNl t with
      | nil => exact absurd hsp (splitNl_ne_nil t)
      | cons h0 r0 =>
        rw [hsp, List.modifyHead_cons] at hu
        rcases List.mem_cons.1 hu with rfl | hu'
        · rcases List.mem_cons.1 hc with rfl | hc'
          · exact List.mem_cons_self c t
          · exact List.mem_cons_of_mem a
              (ih h0 (by rw [hsp]; exact List.mem_cons_self h0 r0) c hc')
        · exact List.mem_cons_of_mem a
            (ih u (by rw [hsp]; exact List.mem_cons_of_mem h0 hu') c hc)

theorem intercalate_cons₂ (sep a : List Char) (b : List Char)
    (r : List (List Char)) :
    List.intercalate sep (a :: b :: r) =
      a ++ sep ++ List.intercalate sep (b :: r) := by
  simp [List.intercalate, List.intersperse, List.append_assoc]

theorem intercalate_single (sep a : List Char) :
    List.intercalate sep [a] = a := by
  simp [List.intercalate, List.intersperse]

theorem intercalate_splitNl (s : List Char) :
    List.intercalate ['\n'] (splitNl s) = s := by
  induction s with
  | nil => simp [splitNl, List.intercalate, List.intersperse]
  | cons a t ih =>
    by_cases ha : a = '\n'
    · subst ha
      rw [show splitNl ('\n' :: t) = [] :: splitNl t from by simp [splitNl]]
      cases hsp : splitNl t with
      | nil => exact absurd hsp (splitNl_ne_nil t)
      | cons h0 r0 =>
        rw [intercalate_cons₂]
        rw [hsp] at ih
        rw [ih]
        simp
    · rw [show splitNl (a :: t) = (splitNl t).modifyHead (fun h => a :: h)
          from by simp [splitNl, ha]]
      cases hsp : splitNl t with
      | nil => exact absurd hsp (splitNl_ne_nil t)
      | cons h0 r0 =>
        rw [List.modifyHead_cons]
        rw [hsp] at ih
        cases r0 with
        | nil =>
          rw [intercalate_single]
          rw [intercalate_single] at ih
          rw [ih]
        | cons r1 r2 =>
          rw [intercalate_cons₂]
          rw [intercalate_cons₂] at ih
          rw [List.cons_append, List.cons_append]
          rw [ih]

theorem splitDoubleNl_cons_ne (c : Char) (t : List Char) (hc : c ≠ '\n') :
    splitDoubleNl (c :: t) =
      (splitDoubleNl t).modifyHead (fun h => c :: h) :=
  splitDoubleNl.eq_3 c t (fun _ hcn _ => hc hcn)

theorem splitDoubleNl_nl_cons (c : Char) (t : List Char) (hc : c ≠ '\n') :
    splitDoubleNl ('\n' :: c :: t) =
      (splitDoubleNl (c :: t)).modifyHead (fun h => '\n' :: h) :=
  splitDoubleNl.eq_3 '\n' (c :: t)
    (by intro t1 _ ht; injection ht with h1 h2; exact hc h1)

theorem splitDoubleNl_ne_nil (s : List Char) : splitDoubleNl s ≠ [] := by
  induction s with
  | nil => simp [splitDoubleNl]
  | cons c t ih =>
    by_cases hc : c = '\n'
    · subst hc
      cases t with
      | nil =>
        rw [splitDoubleNl.eq_3 '\n' [] (fun _ _ h => List.noConfusion h)]
        simp [splitDoubleNl]
      | cons b t2 =>
        by_cases hb : b = '\n'
        · subst hb
          rw [splitDoubleNl.eq_2]
          simp
        · rw [splitDoubleNl_nl_cons b t2 hb]
          cases h : splitDoubleNl (b :: t2) with
          | nil => exact absurd h ih
          | cons a r => simp
    · rw [splitDoubleNl_cons_ne c t hc]
      cases h : splitDoubleNl t with
      | nil => exact absurd h ih
      | cons a r => simp

theorem splitDoubleNl_append_noNl (d r : List Char)
    (hd : ∀ c ∈ d, c ≠ '\n') :
    splitDoubleNl (d ++ r) =
      (splitDoubleNl r).modifyHead (fun h => d ++ h) := by
  induction d with
  | nil =>
    cases h : splitDoubleNl r with
    | nil => simpa using h
    | cons a l => simpa using h
  | cons c d' ih =>
    have hc : c ≠ '\n' := hd c (List.mem_cons_self c d')
    simp only [List.cons_append]
    rw [splitDoubleNl_cons_ne c _ hc]
    rw [ih (fun x hx => hd x (List.mem_cons_of_mem _ hx))]
    rw [modifyHead_modifyHead]

theorem splitDoubleNl_text (txt : List Char) (r : List Char) :
    txt ≠ [] → containsSub ['\n', '\n'] txt = false →
    txt.getLast? ≠ some '\n' →
    splitDoubleNl (txt ++ '\n' :: '\n' :: r) = txt :: splitDoubleNl r := by
  induction txt with
  | nil => intro h; exact absurd rfl h
  | cons a t ih =>
    intro _ hnd hlast
    cases t with
    | nil =>
      have ha : a ≠ '\n' := by
        intro h
        exact hlast (by rw [h]; rfl)
      simp only [List.cons_append, List.nil_append]
      rw [splitDoubleNl_cons_ne a _ ha]
      rw [splitDoubleNl.eq_2]
      rfl
    | cons b t2 =>
      have hsplit : containsSub ['\n', '\n'] (b :: t2) = false ∧
          (['\n', '\n'] : List Char).isPrefixOf (a :: b :: t2) = false := by
        rw [containsSub] at hnd
        exact ⟨(Bool.or_eq_false_iff.1 hnd).2, (Bool.or_eq_false_iff.1 hnd).1⟩
      have hlast' : (b :: t2).getLast? ≠ some '\n' := by
        rw [← List.getLast?_cons_cons (a := a)]
        exact hlast
      by_cases ha : a = '\n'
      · subst ha
        have hb : b ≠ '\n' := by
          intro hb
          subst hb
          simp [List.isPrefixOf] at hsplit
        simp only [List.cons_append]
        rw [splitDoubleNl_nl_cons b _ hb]
        rw [show b :: (t2 ++ '\n' :: '\n' :: r) = (b :: t2) ++ '\n' :: '\n' :: r
            from rfl]
        rw [ih (by simp) hsplit.1 hlast']
        rfl
      · simp only [List.cons_append]
        rw [splitDoubleNl_cons_ne a _ ha]
        rw [show b :: (t2 ++ '\n' :: '\n' :: r) = (b :: t2) ++ '\n' :: '\n' :: r
            from rfl]
        rw [ih (by simp) hsplit.1 hlast']
        rfl

theorem splitDoubleNl_block (d tsl txt r : List Char)
    (hd : ∀ c ∈ d, c ≠ '\n') (htsl_ne : tsl ≠ [])
    (htsl : ∀ c ∈ tsl, c ≠ '\n')
    (htxt_ne : txt ≠ []) (hhead : txt.head? ≠ some '\n')
    (hnd : containsSub ['\n', '\n'] txt = false)
    (hlast : txt.getLast? ≠ some '\n') :
    splitDoubleNl ((d ++ '\n' :: tsl ++ '\n' :: txt) ++ '\n' :: '\n' :: r) =
      (d ++ '\n' :: tsl ++ '\n' :: txt) :: splitDoubleNl r := by
  obtain ⟨u, ts', rfl⟩ := List.exists_cons_of_ne_nil htsl_ne
  obtain ⟨v, txt', rfl⟩ := List.exists_cons_of_ne_nil htxt_ne
  have hu : u ≠ '\n' := htsl u (List.mem_cons_self u ts')
  have hv : v ≠ '\n' := by
    intro h
    exact hhead (by rw [h]; rfl)
  simp only [List.cons_append, List.append_assoc, List.nil_append]
  rw [splitDoubleNl_append_noNl d _ hd]
  rw [splitDoubleNl_nl_cons u _ hu]
  rw [show u :: (ts' ++ '\n' :: v :: (txt' ++ '\n' :: '\n' :: r)) =
      (u :: ts') ++ ('\n' :: v :: (txt' ++ '\n' :: '\n' :: r)) from rfl]
  rw [splitDoubleNl_append_noNl (u :: ts') _ htsl]
  rw [splitDoubleNl_nl_cons v _ hv]
  rw [show v :: (txt' ++ '\n' :: '\n' :: r) =
      (v :: txt') ++ '\n' :: '\n' :: r from rfl]
  rw [splitDoubleNl_text (v :: txt') r (by simp) hnd hlast]
  simp only [List.modifyHead_cons, List.cons_append]

theorem getLast?_cons_of_ne_nil {α : Type} (x : α) {l : List α}
    (h : l ≠ []) : (x :: l).getLast? = l.getLast? := by
  rw [show x :: l = [x] ++ l from rfl]
  exact List.getLast?_append_of_ne_nil [x] h

theorem stripCR_of (l : List Char) (h : l.getLast? ≠ some '\r') :
    stripCR l = l := by
  unfold stripCR
  rw [if_neg h]

theorem linesRust_block (d tsl txt : List Char)
    (hd_ne : d ≠ []) (hd : ∀ c ∈ d, c ≠ '\n' ∧ c ≠ '\r')
    (htsl : ∀ c ∈ tsl, c ≠ '\n' ∧ c ≠ '\r')
    (htxt_ne : txt ≠ []) (htxt_cr : ∀ c ∈ txt, c ≠ '\r')
    (hlast : txt.getLast? ≠ some '\n') :
    linesRust (d ++ '\n' :: tsl ++ '\n' :: txt) = d :: tsl :: splitNl txt := by
  have hsp : splitNl (d ++ '\n' :: tsl ++ '\n' :: txt) =
      d :: tsl :: splitNl txt := by
    simp only [List.cons_append, List.append_assoc]
    rw [splitNl_append_noNl d _ (fun c hc => (hd c hc).1)]
    rw [show splitNl ('\n' :: (tsl ++ '\n' :: txt)) =
        [] :: splitNl (tsl ++ '\n' :: txt) from by simp [splitNl]]
    rw [splitNl_append_noNl tsl _ (fun c hc => (htsl c hc).1)]
    rw [show splitNl ('\n' :: txt) = [] :: splitNl txt from by simp [splitNl]]
    simp [List.modifyHead_cons]
  have hblast : (d ++ '\n' :: tsl ++ '\n' :: txt).getLast? = txt.getLast? := by
    simp only [List.cons_append, List.append_assoc]
    rw [List.getLast?_append_of_ne_nil d (by simp)]
    rw [getLast?_cons_of_ne_nil '\n' (by simp)]
    rw [List.getLast?_append_of_ne_nil tsl (by simp)]
    rw [getLast?_cons_of_ne_nil '\n' htxt_ne]
  obtain ⟨c0, d0, rfl⟩ := List.exists_cons_of_ne_nil hd_ne
  simp only [List.cons_append, List.append_assoc] at hsp hblast ⊢
  rw [linesRust]
  rw [hsp, hblast, if_neg hlast]
  have husne := splitNl_ne_nil txt
  obtain ⟨u0, us', husp⟩ : ∃ u0 us', splitNl txt = u0 :: us' :=
    List.exists_cons_of_ne_nil husne
  rw [husp]
  rw [List.dropLast_cons₂, List.dropLast_cons₂]
  rw [List.map_cons, List.map_cons]
  rw [stripCR_of _ (getLast?_ne_of_forall (fun c hc => (hd c hc).2))]
  rw [stripCR_of _ (getLast?_ne_of_forall (fun c hc => (htsl c hc).2))]
  have hmapid : (List.dropLast (u0 :: us')).map stripCR =
      List.dropLast (u0 :: us') := by
    have hall : ∀ u ∈ List.dropLast (u0 :: us'), stripCR u = u := by
      intro u hu
      apply stripCR_of
      apply getLast?_ne_of_forall
      intro c hc
      apply htxt_cr
      exact splitNl_chars txt u
        (by rw [husp]; exact List.mem_of_mem_dropLast hu) c hc
    rw [List.map_congr_left hall, List.map_id']
  rw [hmapid]
  rw [List.getLast?_cons_cons, List.getLast?_cons_cons]
  have hune : u0 :: us' ≠ [] := by simp
  rw [List.getLast?_eq_getLast_of_ne_nil hune]
  rw [show (some ((u0 :: us').getLast hune)).getD [] =
      (u0 :: us').getLast hune from rfl]
  rw [List.cons_append, List.cons_append]
  rw [List.dropLast_append_getLast hune]

theorem trimLeft_of_head (c : Char) (t : List Char) (h : isWS c = false) :
    trimLeft (c :: t) = c :: t := by
  simp [trimLeft, List.dropWhile_cons, h]

theorem trimRight_of_last (l : List Char)
    (h : l.getLast?.all (fun c => !isWS c) = true) : trimRight l = l := by
  unfold trimRight
  cases hrev : l.reverse with
  | nil =>
    have : l = [] := List.reverse_eq_nil_iff.1 hrev
    subst this
    rfl
  | cons a r =>
    have hl : l.getLast? = some a := by
      rw [← List.head?_reverse, hrev]
      rfl
    rw [hl] at h
    have ha : isWS a = false := by simpa using h
    have hdw : List.dropWhile isWS (a :: r) = a :: r := by
      rw [List.dropWhile_cons, ha]
      simp
    rw [hdw, ← hrev, List.reverse_reverse]

theorem trimChars_id (l : List Char)
    (hhead : l.head?.all (fun c => !isWS c) = true)
    (hlast : l.getLast?.all (fun c => !isWS c) = true) : trimChars l = l := by
  unfold trimChars
  cases l with
  | nil => rfl
  | cons c t =>
    have hc : isWS c = false := by simpa using hhead
    rw [trimLeft_of_head c t hc]
    exact trimRight_of_last _ hlast

theorem block_getLast? (d tsl txt : List Char) (htxt_ne : txt ≠ []) :
    (d ++ '\n' :: tsl ++ '\n' :: txt).getLast? = txt.getLast? := by
  simp only [List.cons_append, List.append_assoc]
  rw [List.getLast?_append_of_ne_nil d (by simp),
      getLast?_cons_of_ne_nil '\n' (by simp),
      List.getLast?_append_of_ne_nil tsl (by simp),
      getLast?_cons_of_ne_nil '\n' htxt_ne]

/-! Digits, padding and the timestamp formatter. -/

theorem digitChar_facts (d : Nat) (h : d < 10) :
    (digitChar d).isDigit = true ∧ charVal (digitChar d) = d ∧
    isWS (digitChar d) = false ∧ digitChar d ≠ '\n' ∧ digitChar d ≠ '\r' := by
  interval_cases d <;>
    exact ⟨rfl, rfl, by decide, by decide, by decide⟩

theorem natCharsF_facts : ∀ (fuel n : Nat), natCharsF fuel n ≠ [] ∧
    ∀ c ∈ natCharsF fuel n, ∃ d, d < 10 ∧ c = digitChar d := by
  intro fuel
  induction fuel with
  | zero =>
    intro n
    refine ⟨by simp [natCharsF], ?_⟩
    intro c hc
    simp [natCharsF] at hc
    exact ⟨n % 10, Nat.mod_lt _ (by omega), hc⟩
  | succ f ih =>
    intro n
    by_cases h : n < 10
    · refine ⟨by simp [natCharsF, h], ?_⟩
      intro c hc
      simp [natCharsF, h] at hc
      exact ⟨n, h, hc⟩
    · refine ⟨by simp [natCharsF, h], ?_⟩
      intro c hc
      simp only [natCharsF, if_neg h, List.mem_append, List.mem_singleton] at hc
      rcases hc with hc | hc
      · exact (ih (n / 10)).2 c hc
      · exact ⟨n % 10, Nat.mod_lt _ (by omega), hc⟩

theorem natChars_ne_nil (n : Nat) : natChars n ≠ [] := (natCharsF_facts _ n).1

theorem natChars_digit (n : Nat) :
    ∀ c ∈ natChars n, ∃ d, d < 10 ∧ c = digitChar d := (natCharsF_facts _ n).2

theorem pad2_eq (n : Nat) (h : n < 100) :
    pad2 n = [digitChar (n / 10), digitChar (n % 10)] := by
  by_cases h10 : n < 10
  · unfold pad2 natChars
    rw [if_pos h10]
    simp only [natCharsF, if_pos h10]
    rw [Nat.div_eq_of_lt h10, Nat.mod_eq_of_lt h10]
    rfl
  · obtain ⟨m, rfl⟩ : ∃ m, n = m + 1 := ⟨n - 1, by omega⟩
    unfold pad2 natChars
    rw [if_neg h10]
    simp only [natCharsF, if_neg h10]
    rw [if_pos (show (m + 1) / 10 < 10 by omega)]
    rfl

theorem pad3_eq (n : Nat) (h : n < 1000) :
    pad3 n = [digitChar (n / 100), digitChar (n / 10 % 10),
      digitChar (n % 10)] := by
  by_cases h10 : n < 10
  · unfold pad3 natChars
    rw [if_pos h10]
    simp only [natCharsF, if_pos h10]
    rw [Nat.div_eq_of_lt (by omega), Nat.div_eq_of_lt h10,
        Nat.mod_eq_of_lt (by omega), Nat.mod_eq_of_lt h10]
    rfl
  · by_cases h100 : n < 100
    · obtain ⟨m, rfl⟩ : ∃ m, n = m + 1 := ⟨n - 1, by omega⟩
      unfold pad3 natChars
      rw [if_neg h10, if_pos h100]
      simp only [natCharsF, if_neg h10]
      rw [if_pos (show (m + 1) / 10 < 10 by omega)]
      rw [Nat.div_eq_of_lt h100]
      rw [show (m + 1) / 10 % 10 = (m + 1) / 10 from
        Nat.mod_eq_of_lt (by omega)]
      rfl
    · obtain ⟨m, rfl⟩ : ∃ m, n = m + 1 := ⟨n - 1, by omega⟩
      unfold pad3 natChars
      rw [if_neg h10, if_neg h100]
      simp only [natCharsF, if_neg h10]
      rw [if_neg (show ¬ (m + 1) / 10 < 10 by omega)]
      have hfuel : ∃ f, m = f + 1 := ⟨m - 1, by omega⟩
      obtain ⟨f, rfl⟩ := hfuel
      simp only [natCharsF]
      rw [if_pos (show (f + 1 + 1) / 10 / 10 < 10 by omega)]
      rw [show (f + 1 + 1) / 10 / 10 = (f + 1 + 1) / 100 from by
        rw [Nat.div_div_eq_div_mul]]
      rfl

theorem expectChar_self (c : Char) (t : List Char) :
    expectChar c (c :: t) = some t := by
  simp [expectChar]

theorem dropPre_self (p s : List Char) : dropPre p (p ++ s) = some s := by
  unfold dropPre
  rw [if_pos (by rw [List.isPrefixOf_iff_prefix]; exact List.prefix_append p s)]
  rw [List.drop_left]

theorem digit2_pad2 (n : Nat) (h : n < 100) (r : List Char) :
    digit2 (pad2 n ++ r) = some (n, r) := by
  have hd1 := digitChar_facts (n / 10) (by omega)
  have hd2 := digitChar_facts (n % 10) (by omega)
  rw [pad2_eq n h]
  simp only [List.cons_append, List.nil_append, digit2]
  rw [if_pos (by rw [hd1.1, hd2.1]; rfl)]
  rw [hd1.2.1, hd2.2.1]
  rw [Nat.div_add_mod]

theorem digit3_pad3 (n : Nat) (h : n < 1000) (r : List Char) :
    digit3 (pad3 n ++ r) = some (n, r) := by
  have hd1 := digitChar_facts (n / 100) (by omega)
  have hd2 := digitChar_facts (n / 10 % 10) (by omega)
  have hd3 := digitChar_facts (n % 10) (by omega)
  rw [pad3_eq n h]
  simp only [List.cons_append, List.nil_append, digit3]
  rw [if_pos (by rw [hd1.1, hd2.1, hd3.1]; rfl)]
  rw [hd1.2.1, hd2.2.1, hd3.2.1]
  congr 2
  omega

theorem matchTimeAt_srtTimestamp (v : Nat) (h : v < 360000000)
    (r : List Char) :
    matchTimeAt ',' (srtTimestamp v ++ r) = some (v, r) := by
  unfold srtTimestamp matchTimeAt
  simp only [List.cons_append, List.append_assoc]
  rw [digit2_pad2 (v / 3600000) (by omega)]
  simp only [Option.bind_eq_bind, Option.some_bind]
  rw [expectChar_self]
  simp only [Option.bind_eq_bind, Option.some_bind]
  rw [digit2_pad2 (v / 60000 % 60) (by omega)]
  simp only [Option.bind_eq_bind, Option.some_bind]
  rw [expectChar_self]
  simp only [Option.bind_eq_bind, Option.some_bind]
  rw [digit2_pad2 (v / 1000 % 60) (by omega)]
  simp only [Option.bind_eq_bind, Option.some_bind]
  rw [expectChar_self]
  simp only [Option.bind_eq_bind, Option.some_bind]
  rw [digit3_pad3 (v % 1000) (by omega)]
  simp only [Option.bind_eq_bind, Option.some_bind]
  congr 2
  omega

theorem pad2_ne_nil (n : Nat) : pad2 n ≠ [] := by
  unfold pad2
  split
  · simp
  · exact natChars_ne_nil n

theorem pad2_mem (n : Nat) :
    ∀ c ∈ pad2 n, ∃ d, d < 10 ∧ c = digitChar d := by
  unfold pad2
  split
  · intro c hc
    rcases List.mem_cons.1 hc with rfl | hc'
    · exact ⟨0, by omega, by decide⟩
    · exact natChars_digit n c hc'
  · exact natChars_digit n

theorem pad3_mem (n : Nat) :
    ∀ c ∈ pad3 n, ∃ d, d < 10 ∧ c = digitChar d := by
  unfold pad3
  split
  · intro c hc
    rcases List.mem_cons.1 hc with rfl | hc'
    · exact ⟨0, by omega, by decide⟩
    · rcases List.mem_cons.1 hc' with rfl | hc''
      · exact ⟨0, by omega, by decide⟩
      · exact natChars_digit n c hc''
  · split
    · intro c hc
      rcases List.mem_cons.1 hc with rfl | hc'
      · exact ⟨0, by omega, by decide⟩
      · exact natChars_digit n c hc'
    · exact natChars_digit n

theorem srtTimestamp_chars (v : Nat) :
    ∀ c ∈ srtTimestamp v, c ≠ '\n' ∧ c ≠ '\r' := by
  have hdig : ∀ c : Char, (∃ d, d < 10 ∧ c = digitChar d) →
      c ≠ '\n' ∧ c ≠ '\r' := by
    rintro c ⟨d, hd, rfl⟩
    exact ⟨(digitChar_facts d hd).2.2.2.1, (digitChar_facts d hd).2.2.2.2⟩
  intro c hc
  unfold srtTimestamp at hc
  simp only [List.append_assoc, List.cons_append, List.mem_append,
    List.mem_cons] at hc
  rcases hc with hc | rfl | hc | rfl | hc | rfl | hc
  · exact hdig c (pad2_mem _ c hc)
  · exact ⟨by decide, by decide⟩
  · exact hdig c (pad2_mem _ c hc)
  · exact ⟨by decide, by decide⟩
  · exact hdig c (pad2_mem _ c hc)
  · exact ⟨by decide, by decide⟩
  · exact hdig c (pad3_mem _ c hc)

theorem tsline_chars (v1 v2 : Nat) :
    ∀ c ∈ srtTimestamp v1 ++ arrowSep ++ srtTimestamp v2,
      c ≠ '\n' ∧ c ≠ '\r' := by
  intro c hc
  simp only [List.mem_append] at hc
  rcases hc with (hc | hc) | hc
  · exact srtTimestamp_chars v1 c hc
  · simp only [arrowSep, List.mem_cons, List.not_mem_nil, or_false] at hc
    rcases hc with rfl | rfl | rfl | rfl | rfl <;> exact ⟨by decide, by decide⟩
  · exact srtTimestamp_chars v2 c hc

theorem srtTimestamp_ne_nil (v : Nat) : srtTimestamp v ≠ [] := by
  unfold srtTimestamp
  intro h
  have hlen := congrArg List.length h
  simp only [List.length_append, List.length_cons, List.length_nil] at hlen
  omega

theorem matchTimePairAt_tsline (v1 v2 : Nat) (h1 : v1 < 360000000)
    (h2 : v2 < 360000000) :
    matchTimePairAt ',' (srtTimestamp v1 ++ arrowSep ++ srtTimestamp v2) =
      some (v1, v2) := by
  unfold matchTimePairAt
  simp only [List.append_assoc]
  rw [matchTimeAt_srtTimestamp v1 h1]
  simp only [Option.bind_eq_bind, Option.some_bind]
  rw [show (" --> ".toList : List Char) = arrowSep from by decide]
  rw [dropPre_self]
  simp only [Option.bind_eq_bind, Option.some_bind]
  have hm2 := matchTimeAt_srtTimestamp v2 h2 []
  rw [List.append_nil] at hm2
  rw [hm2]
  simp only [Option.bind_eq_bind, Option.some_bind]
  rfl

theorem findTimePair_tsline (v1 v2 : Nat) (h1 : v1 < 360000000)
    (h2 : v2 < 360000000) :
    findTimePair ',' (srtTimestamp v1 ++ arrowSep ++ srtTimestamp v2) =
      some (v1, v2) := by
  obtain ⟨c0, rest, hsh⟩ : ∃ c0 rest,
      srtTimestamp v1 ++ arrowSep ++ srtTimestamp v2 = c0 :: rest :=
    List.exists_cons_of_ne_nil
      (by simp [List.append_eq_nil, srtTimestamp_ne_nil v1, arrowSep])
  have hm := matchTimePairAt_tsline v1 v2 h1 h2
  rw [hsh] at hm ⊢
  simp only [findTimePair]
  rw [hm]

theorem natChars_no_nl_cr (n : Nat) :
    ∀ c ∈ natChars n, c ≠ '\n' ∧ c ≠ '\r' := by
  intro c hc
  obtain ⟨d, hd, rfl⟩ := natChars_digit n c hc
  exact ⟨(digitChar_facts d hd).2.2.2.1, (digitChar_facts d hd).2.2.2.2⟩

theorem parseSrtBlock_body (i : Nat) (e : SubtitleEntry)
    (hcan : CanonicalEntry e) :
    parseSrtBlock (srtBlockBody i e) = some e := by
  obtain ⟨hs, he, htne, hcr, hnd, hhead, hlastws⟩ := hcan
  have hcr' : ∀ c ∈ e.text.toList, c ≠ '\r' := hcr
  have hlast_nl : e.text.toList.getLast? ≠ some '\n' := by
    intro hx
    rw [hx] at hlastws
    exact absurd hlastws (by decide)
  obtain ⟨n0, nd, hnc⟩ := List.exists_cons_of_ne_nil (natChars_ne_nil (i + 1))
  obtain ⟨dd, hdd, hn0⟩ := natChars_digit (i + 1) n0
    (by rw [hnc]; exact List.mem_cons_self n0 nd)
  have hheadall : (natChars (i + 1) ++
      '\n' :: (srtTimestamp e.start ++ arrowSep ++ srtTimestamp e.endT) ++
      '\n' :: e.text.toList).head?.all (fun c => !isWS c) = true := by
    rw [hnc]
    rw [show ((n0 :: nd) ++
        '\n' :: (srtTimestamp e.start ++ arrowSep ++ srtTimestamp e.endT) ++
        '\n' :: e.text.toList).head? = some n0 from rfl]
    rw [hn0]
    simp [(digitChar_facts dd hdd).2.2.1]
  have hlastall : (natChars (i + 1) ++
      '\n' :: (srtTimestamp e.start ++ arrowSep ++ srtTimestamp e.endT) ++
      '\n' :: e.text.toList).getLast?.all (fun c => !isWS c) = true := by
    rw [block_getLast? _ _ _ htne]
    exact hlastws
  simp only [parseSrtBlock, srtBlockBody]
  rw [trimChars_id _ hheadall hlastall]
  rw [linesRust_block (natChars (i + 1))
      (srtTimestamp e.start ++ arrowSep ++ srtTimestamp e.endT)
      e.text.toList (natChars_ne_nil _) (natChars_no_nl_cr _)
      (tsline_chars e.start e.endT) htne hcr' hlast_nl]
  obtain ⟨u0, us', husp⟩ :=
    List.exists_cons_of_ne_nil (splitNl_ne_nil e.text.toList)
  rw [husp]
  dsimp only
  rw [findTimePair_tsline e.start e.endT hs he]
  dsimp only
  rw [← husp, intercalate_splitNl]
  rfl

theorem parseSrtBlock_nil : parseSrtBlock [] = none := rfl

theorem tsline_ne_nil (v1 v2 : Nat) :
    srtTimestamp v1 ++ arrowSep ++ srtTimestamp v2 ≠ [] := by
  simp [List.append_eq_nil, arrowSep]

theorem canonical_getLast_ne_nl (e : SubtitleEntry) (hcan : CanonicalEntry e) :
    e.text.toList.getLast? ≠ some '\n' := by
  intro hx
  have h := hcan.2.2.2.2.2.2
  rw [hx] at h
  exact absurd h (by decide)

theorem parse_toSrtGo (entries : List SubtitleEntry) :
    ∀ i, (∀ e ∈ entries, CanonicalEntry e) → entries ≠ [] →
      (splitDoubleNl (toSrtGo i entries)).filterMap parseSrtBlock =
        entries := by
  induction entries with
  | nil => intro i _ h; exact absurd rfl h
  | cons e rest ih =>
    intro i hcan _
    have hce := hcan e (List.mem_cons_self e rest)
    rw [toSrtGo]
    simp only [srtBlockBody]
    rw [splitDoubleNl_block (natChars (i + 1))
        (srtTimestamp e.start ++ arrowSep ++ srtTimestamp e.endT)
        e.text.toList (toSrtGo (i + 1) rest)
        (fun c hc => (natChars_no_nl_cr _ c hc).1)
        (tsline_ne_nil e.start e.endT)
        (fun c hc => (tsline_chars e.start e.endT c hc).1)
        hce.2.2.1 hce.2.2.2.2.2.1 hce.2.2.2.2.1
        (canonical_getLast_ne_nl e hce)]
    have hpb := parseSrtBlock_body i e hce
    simp only [srtBlockBody] at hpb
    simp only [List.filterMap_cons]
    rw [hpb]
    by_cases hrest : rest = []
    · subst hrest
      rw [toSrtGo]
      simp [splitDoubleNl, List.filterMap, parseSrtBlock_nil]
    · rw [ih (i + 1) (fun x hx => hcan x (List.mem_cons_of_mem e hx)) hrest]

/-- C3 counterexample: the single canonical-shaped entry whose text
contains a blank line ("a\n\nb") encodes to a numbered block that the
parser splits apart — re-parsing returns one entry with text "a", not the
original sequence, so the round trip fails without further side
conditions on the text. -/
theorem srt_roundtrip_counterexample :
    (parseSrtContent (String.mk (toSrtChars [⟨0, 1000, "a\n\nb"⟩])) "en").map
        (fun p => p.entries) ≠
      Except.ok [⟨0, 1000, "a\n\nb"⟩] := by
  decide

/-- C3 amended: for every non-empty entry sequence whose entries are
canonical for the numbered-block encoding — offsets below the 100-hour
two-digit field limit, and text that is non-empty, free of carriage
returns and of blank lines (no two adjacent newlines), does not start with
a newline and does not end in whitespace — encoding to SRT and re-parsing
the output reproduces exactly the same ordered entries, with offsets equal
at millisecond precision and text unchanged. -/
theorem srt_roundtrip (entries : List SubtitleEntry) (lang : String)
    (hne : entries ≠ []) (hcan : ∀ e ∈ entries, CanonicalEntry e) :
    parseSrtContent (String.mk (toSrtChars entries)) lang =
      .ok ⟨entries, lang, SubtitleType.Srt⟩ := by
  have hparse := parse_toSrtGo entries 0 hcan hne
  simp only [parseSrtContent, toSrtChars]
  rw [show (String.mk (toSrtGo 0 entries)).toList = toSrtGo 0 entries
      from rfl]
  rw [hparse]
  rw [if_neg (fun hh => hne (List.isEmpty_iff.1 hh))]

/-- Concrete instantiation of `srt_roundtrip`: the two-entry "Hello" /
"World" sequence encodes and re-parses to itself. -/
theorem srt_roundtrip_witness :
    parseSrtContent (String.mk (toSrtChars
      [⟨1000, 3000, "Hello"⟩, ⟨4000, 6000, "World"⟩])) "en" =
      .ok ⟨[⟨1000, 3000, "Hello"⟩, ⟨4000, 6000, "World"⟩], "en",
        SubtitleType.Srt⟩ :=
  srt_roundtrip [⟨1000, 3000, "Hello"⟩, ⟨4000, 6000, "World"⟩] "en"
    (by decide) (by decide)
